import Mathlib

set_option maxHeartbeats 1000000

/-!
# Verification of the surrealism host/guest typed value-passing layer

This file gives a shallow embedding, in Lean 4, of the core of the
surrealism repository: the transfer engine that moves typed values
(`Value`, `Kind`) between host and guest across a shared linear memory
(`crates/surrealism-types`), the host controller invocation path
(`crates/surrealism-runtime/src/controller.rs`), the guest-side argument
decoding (`crates/surrealism-types/src/args.rs`), the attribute build
step (`crates/surrealism-macros/src/lib.rs`), the guest allocator
(`crates/surrealism/src/memory.rs`) and the in-memory key-value backend
(`crates/surrealism-runtime/src/kv.rs`).

Modelling conventions:

* Guest linear memory is modelled as a heap of typed blocks addressed by
  abstract block identifiers (natural numbers).  Every allocation made by
  the transfer engine writes one block whose cells carry exactly one of
  the `repr(C)` payload types that the engine ever stores (`u8`,
  `Value`, `Kind`, `Strand`, `KeyValuePair`, `TransferredArray`,
  `CResult<Value>`).  Abstracting byte offsets to block identifiers is
  justified by the allocator invariant stated in the specification:
  allocation never yields pointers aliasing any still-live block, and
  every read of a block uses the same element type that was written,
  with one exception that is modelled explicitly from the `repr(C)`
  layout rules (the host controller reading a `CResult<Value>` block as
  a plain `Value`).
* Machine integers are modelled as `Int`/`Nat`; `f64` payloads are
  carried as raw 64-bit patterns (`Nat`), which is faithful because the
  transfer engine only ever copies them and the specification states
  that float equality follows bitwise equality.
* Fallible Rust code returning `anyhow::Result` is modelled with
  `Except SrError`; a Rust panic (`expect`) is modelled by the
  distinguished `SrError.fatal` outcome carrying the panic message.
-/

/-- Errors of the embedded code: the `Error` enum of
`crates/surrealism-types/src/err.rs` plus the model-level outcomes.
`fatal` models a Rust panic (for example the `expect` in
`string.rs`); `layoutViolation` models a read of a freed, absent or
differently-typed block, which in the real code is undefined behaviour;
`outOfFuel` is a model artifact of the fuel-indexed decoders and never
occurs for sufficient fuel. -/
inductive SrError where
  | invalidDatetime : SrError
  | unexpectedType : SrError
  | invalidArgs (expected got : Nat) : SrError
  | unsupportedKind : SrError
  | fatal (msg : String) : SrError
  | layoutViolation : SrError
  | outOfFuel : SrError
deriving DecidableEq

/-- A `TransferredArray<T>` handle: `{ ptr: u32, len: u32 }`
(`crates/surrealism-types/src/array.rs`). -/
structure TArr where
  ptr : Nat
  len : Nat
deriving DecidableEq

/-- The C layout of `Number` (`crates/surrealism-types/src/number.rs`):
a 64-bit integer or a 64-bit float (carried as its bit pattern). -/
inductive TNumber where
  | int (i : Int) : TNumber
  | float (bits : Nat) : TNumber
deriving DecidableEq

/-- The C layout of `Id` (`crates/surrealism-types/src/thing.rs`). -/
inductive TId where
  | number (i : Int) : TId
  | string (s : TArr) : TId
  | array (a : TArr) : TId
  | object (o : TArr) : TId
deriving DecidableEq

/-- The C layout of `Value` (`crates/surrealism-types/src/value.rs`).
A `Strand`, `Bytes`, `Array` or `Object` payload is a
`TransferredArray` handle into further blocks.  The constructor order
mirrors the Rust declaration order, which fixes the `repr(C)`
discriminants `0, 1, 2, ...`. -/
inductive TValue where
  | none : TValue
  | null : TValue
  | bool (b : Bool) : TValue
  | number (n : TNumber) : TValue
  | strand (s : TArr) : TValue
  | duration (secs nanos : Nat) : TValue
  | datetime (secs : Int) (nanos : Nat) : TValue
  | uuid (bytes : List Nat) : TValue
  | array (a : TArr) : TValue
  | object (o : TArr) : TValue
  | bytes (b : TArr) : TValue
  | thing (tb : TArr) (id : TId) : TValue
deriving DecidableEq

/-- `COption<T>` (`crates/surrealism-types/src/utils.rs`): tag 0 is
`None`, tag 1 is `Some`. -/
inductive COpt (α : Type) where
  | none : COpt α
  | some (a : α) : COpt α
deriving DecidableEq

/-- The C layout of `Literal` (`crates/surrealism-types/src/kind.rs`). -/
inductive TLiteral where
  | string (s : TArr) : TLiteral
  | number (n : TNumber) : TLiteral
  | duration (secs nanos : Nat) : TLiteral
  | array (a : TArr) : TLiteral
  | object (o : TArr) : TLiteral
  | discObject (key : TArr) (variants : TArr) : TLiteral
  | bool (b : Bool) : TLiteral
deriving DecidableEq

/-- The C layout of `Kind` (`crates/surrealism-types/src/kind.rs`).
`option`, `set`, `array` and the return slot of `function` hold a
`Transferred<Kind>` pointer (a single block id). -/
inductive TKind where
  | any : TKind
  | null : TKind
  | bool : TKind
  | bytes : TKind
  | datetime : TKind
  | decimal : TKind
  | duration : TKind
  | float : TKind
  | int : TKind
  | number : TKind
  | object : TKind
  | point : TKind
  | string : TKind
  | uuid : TKind
  | regex : TKind
  | record (tables : TArr) : TKind
  | geometry (tags : TArr) : TKind
  | option (inner : Nat) : TKind
  | either (ks : TArr) : TKind
  | set (inner : Nat) (len : COpt Nat) : TKind
  | array (inner : Nat) (len : COpt Nat) : TKind
  | function (args : COpt TArr) (ret : COpt Nat) : TKind
  | range : TKind
  | literal (l : TLiteral) : TKind
deriving DecidableEq

/-- `CResult<Value>` (`crates/surrealism-types/src/utils.rs`): tag 0 is
`Ok(Value)`, tag 1 is `Err(Strand)`. -/
inductive TCResultV where
  | ok (v : TValue) : TCResultV
  | err (e : TArr) : TCResultV
deriving DecidableEq

/-- One cell of a heap block.  Each variant is one of the element types
the transfer engine ever writes through `Vec<T>::into_transferrable` or
the blanket `Transfer` impl (`convert.rs`, `array.rs`). -/
inductive HVal where
  | byte (b : Nat) : HVal
  | value (v : TValue) : HVal
  | kvpairV (key : TArr) (v : TValue) : HVal
  | kind (k : TKind) : HVal
  | strand (s : TArr) : HVal
  | tarr (a : TArr) : HVal
  | kvpairK (key : TArr) (k : TKind) : HVal
  | cresultV (r : TCResultV) : HVal
deriving DecidableEq

/-- A heap block: the typed cells of one allocation. -/
def Block := List HVal
deriving instance DecidableEq for Block

/-- Guest linear memory: a bump-pointer of fresh block ids together with
an association list from block id to block.  Mirrors a `MemoryController`
(`crates/surrealism-types/src/controller.rs`) whose `alloc` always
returns a fresh address, per the allocator invariant of the
specification. -/
structure Heap where
  next : Nat
  mem : List (Nat × Block)

/-- Association-list lookup for heap memory. -/
def memLookup : List (Nat × Block) → Nat → Option Block
  | [], _ => Option.none
  | e :: r, p => if e.fst = p then Option.some e.snd else memLookup r p

/-- Read the block at address `p`. -/
def Heap.lookup (h : Heap) (p : Nat) : Option Block :=
  memLookup h.mem p

/-- Allocate a fresh block: returns the fresh address and the new heap.
Models `MemoryController::alloc` followed by writing the payload through
`mut_mem`. -/
def Heap.alloc (h : Heap) (b : Block) : Nat × Heap :=
  (h.next, ⟨h.next + 1, (h.next, b) :: h.mem⟩)

/-- Free the block at address `p` (`MemoryController::free`). -/
def Heap.free (h : Heap) (p : Nat) : Heap :=
  ⟨h.next, h.mem.filter (fun e => e.fst != p)⟩

/-- The empty guest memory. -/
def Heap.empty : Heap := ⟨0, []⟩

theorem memLookup_filter_ne (m : List (Nat × Block)) (p q : Nat) :
    memLookup (m.filter (fun e => e.fst != p)) q =
      if q = p then Option.none else memLookup m q := by
  induction m with
  | nil => simp [memLookup]
  | cons e r ih =>
    rw [List.filter_cons]
    by_cases hep : e.fst = p
    · have hb : (e.fst != p) = false := by simp [hep]
      rw [hb]
      simp only [Bool.false_eq_true, if_false]
      rw [ih]
      by_cases hqp : q = p
      · simp [hqp]
      · have hne : ¬ e.fst = q := fun hc => hqp (by rw [← hc, hep])
        simp [memLookup, hqp, hne]
    · have hb : (e.fst != p) = true := by simp [hep]
      rw [hb]
      simp only [if_true]
      by_cases heq : e.fst = q
      · have hqp : ¬ q = p := fun hc => hep (by rw [heq, hc])
        simp [memLookup, heq, hqp]
      · simp [memLookup, heq, ih]

theorem Heap.lookup_free (h : Heap) (p q : Nat) :
    (h.free p).lookup q = if q = p then Option.none else h.lookup q := by
  unfold Heap.free Heap.lookup
  exact memLookup_filter_ne h.mem p q

theorem Heap.lookup_alloc (h : Heap) (b : Block) (q : Nat) :
    ((h.alloc b).2).lookup q =
      if h.next = q then Option.some b else h.lookup q := by
  unfold Heap.alloc Heap.lookup
  by_cases hq : h.next = q <;> simp [memLookup, hq]

theorem Heap.alloc_fst (h : Heap) (b : Block) : (h.alloc b).1 = h.next := rfl

theorem Heap.alloc_next (h : Heap) (b : Block) :
    ((h.alloc b).2).next = h.next + 1 := rfl

theorem Heap.free_next (h : Heap) (p : Nat) : (h.free p).next = h.next := rfl

/-! ## UTF-8 (model of `str::as_bytes` / `String::from_utf8` from std)

The repository code delegates UTF-8 encoding and validation entirely to
the Rust standard library (`String::as_bytes` in `string.rs`,
`String::from_utf8` in `string.rs`).  We model them by the UTF-8
encoding itself: `encChar`/`strBytes` produce the canonical UTF-8 bytes
of a string, and `utf8Dec` is a strict validator-decoder implementing
the well-formedness rules `String::from_utf8` enforces (continuation
bytes, no overlong forms, no surrogates, at most U+10FFFF). -/

/-- Canonical UTF-8 encoding of a code point (arithmetic form). -/
def encChar (n : Nat) : List Nat :=
  if n < 0x80 then [n]
  else if n < 0x800 then [0xC0 + n / 64, 0x80 + n % 64]
  else if n < 0x10000 then
    [0xE0 + n / 4096, 0x80 + (n / 64) % 64, 0x80 + n % 64]
  else
    [0xF0 + n / 262144, 0x80 + (n / 4096) % 64, 0x80 + (n / 64) % 64,
      0x80 + n % 64]

/-- Model of `str::as_bytes`: UTF-8 bytes of a string. -/
def strBytes (s : String) : List Nat :=
  (s.data.map (fun c => encChar c.toNat)).flatten

/-- Decode one code point: given a lead byte and the remaining input,
return the code point and the number of continuation bytes consumed.
Rejects exactly what `String::from_utf8` rejects: stray or missing
continuation bytes (a missing byte reads as the default `0`, which fails
the continuation test), overlong encodings (including lead bytes
`C0`/`C1`), surrogates (`ED A0..BF`) and code points above U+10FFFF
(`F5..FF`, `F4 90..`). -/
def utf8Step (b0 : Nat) (r : List Nat) : Option (Nat × Nat) :=
  if b0 < 0x80 then Option.some (b0, 0)
  else if b0 < 0xC2 then Option.none
  else if b0 < 0xE0 then
    if 0x80 ≤ r.getD 0 0 ∧ r.getD 0 0 < 0xC0 then
      Option.some ((b0 - 0xC0) * 64 + (r.getD 0 0 - 0x80), 1)
    else Option.none
  else if b0 < 0xF0 then
    if (0x80 ≤ r.getD 0 0 ∧ r.getD 0 0 < 0xC0) ∧
        (0x80 ≤ r.getD 1 0 ∧ r.getD 1 0 < 0xC0) ∧
        (b0 = 0xE0 → 0xA0 ≤ r.getD 0 0) ∧ (b0 = 0xED → r.getD 0 0 < 0xA0) then
      Option.some ((b0 - 0xE0) * 4096 + (r.getD 0 0 - 0x80) * 64 +
        (r.getD 1 0 - 0x80), 2)
    else Option.none
  else if b0 < 0xF5 then
    if (0x80 ≤ r.getD 0 0 ∧ r.getD 0 0 < 0xC0) ∧
        (0x80 ≤ r.getD 1 0 ∧ r.getD 1 0 < 0xC0) ∧
        (0x80 ≤ r.getD 2 0 ∧ r.getD 2 0 < 0xC0) ∧
        (b0 = 0xF0 → 0x90 ≤ r.getD 0 0) ∧ (b0 = 0xF4 → r.getD 0 0 < 0x90) then
      Option.some ((b0 - 0xF0) * 262144 + (r.getD 0 0 - 0x80) * 4096 +
        (r.getD 1 0 - 0x80) * 64 + (r.getD 2 0 - 0x80), 3)
    else Option.none
  else Option.none

/-- Strict UTF-8 decoder over the whole input. -/
def utf8Dec : List Nat → Option (List Char)
  | [] => Option.some []
  | b0 :: r =>
    match utf8Step b0 r with
    | Option.some (n, k) =>
      (utf8Dec (r.drop k)).map (fun cs => Char.ofNat n :: cs)
    | Option.none => Option.none
termination_by l => l.length
decreasing_by
  simp only [List.length_cons, List.length_drop]
  omega

/-- Model of `String::from_utf8`: a string when the bytes are
well-formed UTF-8, nothing otherwise. -/
def fromUtf8 (l : List Nat) : Option String :=
  match utf8Dec l with
  | Option.some cs => Option.some (String.mk cs)
  | Option.none => Option.none

theorem char_toNat_valid (c : Char) :
    c.toNat < 0xD800 ∨ (0xDFFF < c.toNat ∧ c.toNat < 0x110000) := by
  have h := c.valid
  unfold UInt32.isValidChar Nat.isValidChar at h
  exact h

theorem utf8Dec_cons (b0 : Nat) (r : List Nat) :
    utf8Dec (b0 :: r) =
      match utf8Step b0 r with
      | Option.some (n, k) =>
        (utf8Dec (r.drop k)).map (fun cs => Char.ofNat n :: cs)
      | Option.none => Option.none := by
  rw [utf8Dec]

theorem utf8Dec_encChar (c : Char) (r : List Nat) (cs : List Char)
    (ih : utf8Dec r = Option.some cs) :
    utf8Dec (encChar c.toNat ++ r) = Option.some (c :: cs) := by
  have hval := char_toNat_valid c
  have hofNat : Char.ofNat c.toNat = c := Char.ofNat_toNat c
  set n := c.toNat with hn
  by_cases h1 : n < 0x80
  · have henc : encChar n = [n] := by unfold encChar; rw [if_pos h1]
    rw [henc, List.cons_append, List.nil_append, utf8Dec_cons]
    have hstep : utf8Step n r = Option.some (n, 0) := by
      unfold utf8Step; rw [if_pos h1]
    rw [hstep]
    simp only [List.drop_zero, ih, hofNat]
    rfl
  · by_cases h2 : n < 0x800
    · have henc : encChar n = [0xC0 + n / 64, 0x80 + n % 64] := by
        unfold encChar; rw [if_neg h1, if_pos h2]
      rw [henc]
      simp only [List.cons_append, List.nil_append]
      rw [utf8Dec_cons]
      have hstep : utf8Step (0xC0 + n / 64) ((0x80 + n % 64) :: r) =
          Option.some (n, 1) := by
        unfold utf8Step
        have hc1 : ¬ (0xC0 + n / 64 < 0x80) := by omega
        have hc2 : ¬ (0xC0 + n / 64 < 0xC2) := by omega
        have hc3 : (0xC0 + n / 64 < 0xE0) := by omega
        rw [if_neg hc1, if_neg hc2, if_pos hc3]
        have hg : 0x80 ≤ ((0x80 + n % 64) :: r).getD 0 0 ∧
            ((0x80 + n % 64) :: r).getD 0 0 < 0xC0 := by
          simp only [List.getD_cons_zero]; omega
        rw [if_pos hg]
        simp only [List.getD_cons_zero]
        have harith : (0xC0 + n / 64 - 0xC0) * 64 + (0x80 + n % 64 - 0x80) = n := by
          omega
        rw [harith]
      rw [hstep]
      simp only [List.drop_succ_cons, List.drop_zero, ih, hofNat]
      rfl
    · by_cases h3 : n < 0x10000
      · have henc : encChar n =
            [0xE0 + n / 4096, 0x80 + (n / 64) % 64, 0x80 + n % 64] := by
          unfold encChar; rw [if_neg h1, if_neg h2, if_pos h3]
        rw [henc]
        simp only [List.cons_append, List.nil_append]
        rw [utf8Dec_cons]
        have hstep : utf8Step (0xE0 + n / 4096)
            ((0x80 + (n / 64) % 64) :: (0x80 + n % 64) :: r) =
            Option.some (n, 2) := by
          unfold utf8Step
          have hc1 : ¬ (0xE0 + n / 4096 < 0x80) := by omega
          have hc2 : ¬ (0xE0 + n / 4096 < 0xC2) := by omega
          have hc3 : ¬ (0xE0 + n / 4096 < 0xE0) := by omega
          have hc4 : (0xE0 + n / 4096 < 0xF0) := by omega
          rw [if_neg hc1, if_neg hc2, if_neg hc3, if_pos hc4]
          simp only [List.getD_cons_zero, List.getD_cons_succ]
          have hg : (0x80 ≤ 0x80 + (n / 64) % 64 ∧ 0x80 + (n / 64) % 64 < 0xC0) ∧
              (0x80 ≤ 0x80 + n % 64 ∧ 0x80 + n % 64 < 0xC0) ∧
              (0xE0 + n / 4096 = 0xE0 → 0xA0 ≤ 0x80 + (n / 64) % 64) ∧
              (0xE0 + n / 4096 = 0xED → 0x80 + (n / 64) % 64 < 0xA0) := by
            refine ⟨by omega, by omega, ?_, ?_⟩
            · intro he; omega
            · intro he; omega
          rw [if_pos hg]
          have harith : (0xE0 + n / 4096 - 0xE0) * 4096 +
              (0x80 + (n / 64) % 64 - 0x80) * 64 + (0x80 + n % 64 - 0x80) = n := by
            omega
          rw [harith]
        rw [hstep]
        simp only [List.drop_succ_cons, List.drop_zero, ih, hofNat]
        rfl
      · have henc : encChar n =
            [0xF0 + n / 262144, 0x80 + (n / 4096) % 64, 0x80 + (n / 64) % 64,
              0x80 + n % 64] := by
          unfold encChar; rw [if_neg h1, if_neg h2, if_neg h3]
        rw [henc]
        simp only [List.cons_append, List.nil_append]
        rw [utf8Dec_cons]
        have hstep : utf8Step (0xF0 + n / 262144)
            ((0x80 + (n / 4096) % 64) :: (0x80 + (n / 64) % 64) ::
              (0x80 + n % 64) :: r) = Option.some (n, 3) := by
          unfold utf8Step
          have hc1 : ¬ (0xF0 + n / 262144 < 0x80) := by omega
          have hc2 : ¬ (0xF0 + n / 262144 < 0xC2) := by omega
          have hc3 : ¬ (0xF0 + n / 262144 < 0xE0) := by omega
          have hc4 : ¬ (0xF0 + n / 262144 < 0xF0) := by omega
          have hc5 : (0xF0 + n / 262144 < 0xF5) := by omega
          rw [if_neg hc1, if_neg hc2, if_neg hc3, if_neg hc4, if_pos hc5]
          simp only [List.getD_cons_zero, List.getD_cons_succ]
          have hg : (0x80 ≤ 0x80 + (n / 4096) % 64 ∧ 0x80 + (n / 4096) % 64 < 0xC0) ∧
              (0x80 ≤ 0x80 + (n / 64) % 64 ∧ 0x80 + (n / 64) % 64 < 0xC0) ∧
              (0x80 ≤ 0x80 + n % 64 ∧ 0x80 + n % 64 < 0xC0) ∧
              (0xF0 + n / 262144 = 0xF0 → 0x90 ≤ 0x80 + (n / 4096) % 64) ∧
              (0xF0 + n / 262144 = 0xF4 → 0x80 + (n / 4096) % 64 < 0x90) := by
            refine ⟨by omega, by omega, by omega, ?_, ?_⟩
            · intro he; omega
            · intro he; omega
          rw [if_pos hg]
          have harith : (0xF0 + n / 262144 - 0xF0) * 262144 +
              (0x80 + (n / 4096) % 64 - 0x80) * 4096 +
              (0x80 + (n / 64) % 64 - 0x80) * 64 + (0x80 + n % 64 - 0x80) = n := by
            omega
          rw [harith]
        rw [hstep]
        simp only [List.drop_succ_cons, List.drop_zero, ih, hofNat]
        rfl

theorem utf8Dec_chars (cs : List Char) :
    utf8Dec ((cs.map (fun c => encChar c.toNat)).flatten) = Option.some cs := by
  induction cs with
  | nil => simp only [List.map_nil, List.flatten_nil, utf8Dec]
  | cons c rest ih =>
    simp only [List.map_cons, List.flatten_cons]
    exact utf8Dec_encChar c _ rest ih

/-- Roundtrip of the std UTF-8 model: decoding the bytes of a string
yields the string back. -/
theorem fromUtf8_strBytes (s : String) : fromUtf8 (strBytes s) = Option.some s := by
  unfold fromUtf8 strBytes
  rw [utf8Dec_chars]

/-! ## Byte-wise string order (model of the `Ord` on Rust `&str`/`String`)

Rust compares strings byte-lexicographically on their UTF-8 bytes; this
is the order `BTreeMap<String, _>` iterates in and the order the KV
store range checks use. -/

/-- Lexicographic strict order on byte lists (model of `[u8]::cmp`). -/
def bytesLt : List Nat → List Nat → Bool
  | [], [] => false
  | [], _ :: _ => true
  | _ :: _, [] => false
  | a :: as, b :: bs => if a < b then true else if a = b then bytesLt as bs else false

/-- Model of `&str` strict order: byte-lexicographic on UTF-8 bytes. -/
def strLt (a b : String) : Bool := bytesLt (strBytes a) (strBytes b)

/-- Model of `&str` non-strict order. -/
def strLe (a b : String) : Bool := !(strLt b a)

theorem bytesLt_irrefl (l : List Nat) : bytesLt l l = false := by
  induction l with
  | nil => rfl
  | cons a r ih => simp [bytesLt, ih]

theorem bytesLt_asymm (a b : List Nat) (h : bytesLt a b = true) :
    bytesLt b a = false := by
  induction a generalizing b with
  | nil =>
    cases b with
    | nil => rfl
    | cons x r => rfl
  | cons x r ih =>
    cases b with
    | nil => simp [bytesLt] at h
    | cons y s =>
      by_cases hxy : x < y
      · have hyx : ¬ y < x := by omega
        have hne : ¬ y = x := by omega
        simp [bytesLt, hyx, hne]
      · by_cases heq : x = y
        · subst heq
          simp only [bytesLt, lt_irrefl, if_false, if_pos rfl] at h ⊢
          exact ih s h
        · simp [bytesLt, hxy, heq] at h

theorem strLt_irrefl (a : String) : strLt a a = false := bytesLt_irrefl _

theorem strLt_asymm (a b : String) (h : strLt a b = true) : strLt b a = false :=
  bytesLt_asymm _ _ h

/-! ## Sorted association lists (model of `BTreeMap<String, α>`)

A `BTreeMap` is modelled by its iteration sequence: an association list
strictly ascending in `strLt`.  `mapInsert`/`mapFromList` model
`BTreeMap::insert` and `BTreeMap::from_iter`. -/

/-- The strict-ascending-keys invariant of a `BTreeMap` iteration
sequence. -/
def SortedKeys {α : Type} (l : List (String × α)) : Prop :=
  l.Pairwise (fun a b => strLt a.fst b.fst = true)

/-- Executable form of `SortedKeys`. -/
def sortedKeysB {α : Type} : List (String × α) → Bool
  | [] => true
  | e :: r => (r.all (fun e2 => strLt e.fst e2.fst)) && sortedKeysB r

theorem sortedKeysB_iff {α : Type} (l : List (String × α)) :
    sortedKeysB l = true ↔ SortedKeys l := by
  induction l with
  | nil => simp [sortedKeysB, SortedKeys]
  | cons e r ih =>
    simp only [sortedKeysB, Bool.and_eq_true, List.all_eq_true, SortedKeys,
      List.pairwise_cons]
    constructor
    · intro hx
      exact ⟨hx.1, (ih).mp hx.2⟩
    · intro hx
      exact ⟨hx.1, (ih).mpr hx.2⟩

/-- `BTreeMap::insert` on the iteration sequence. -/
def mapInsert {α : Type} : List (String × α) → String → α → List (String × α)
  | [], k, v => [(k, v)]
  | (k0, v0) :: r, k, v =>
    if strLt k k0 then (k, v) :: (k0, v0) :: r
    else if k = k0 then (k, v) :: r
    else (k0, v0) :: mapInsert r k v

/-- `BTreeMap::from_iter` (later duplicates overwrite earlier ones). -/
def mapFromList {α : Type} (l : List (String × α)) : List (String × α) :=
  l.foldl (fun m kv => mapInsert m kv.fst kv.snd) []

theorem mapInsert_append {α : Type} (m : List (String × α)) (k : String) (v : α)
    (h : ∀ e ∈ m, strLt e.fst k = true) :
    mapInsert m k v = m ++ [(k, v)] := by
  induction m with
  | nil => rfl
  | cons e r ih =>
    have he : strLt e.fst k = true := h e (List.mem_cons_self ..)
    have h1 : strLt k e.fst = false := strLt_asymm _ _ he
    have h2 : ¬ k = e.fst := by
      intro hc
      rw [hc] at he
      rw [strLt_irrefl] at he
      exact Bool.false_ne_true he
    cases e with
    | mk k0 v0 =>
      simp only [mapInsert]
      simp only at h1 h2
      rw [h1]
      simp only [Bool.false_eq_true, if_false, if_neg h2, List.cons_append]
      congr 1
      exact ih (fun e2 he2 => h e2 (List.mem_cons_of_mem _ he2))

theorem mapFromList_go {α : Type} (l acc : List (String × α))
    (h : SortedKeys (acc ++ l)) :
    l.foldl (fun m kv => mapInsert m kv.fst kv.snd) acc = acc ++ l := by
  induction l generalizing acc with
  | nil => simp
  | cons x r ih =>
    have hall : ∀ e ∈ acc, strLt e.fst x.fst = true := by
      intro e he
      have := (List.pairwise_append.mp h).2.2 e he x (List.mem_cons_self ..)
      exact this
    simp only [List.foldl_cons]
    rw [mapInsert_append acc x.fst x.snd hall]
    have hx : acc ++ [(x.fst, x.snd)] ++ r = acc ++ x :: r := by
      simp [List.append_assoc]
    have h2 : SortedKeys (acc ++ [(x.fst, x.snd)] ++ r) := by
      rw [hx]; exact h
    rw [ih (acc ++ [(x.fst, x.snd)]) h2, hx]

/-- `BTreeMap::from_iter` of a strictly ascending sequence is that
sequence: rebuilding an object from its decoded entries restores it. -/
theorem mapFromList_sorted {α : Type} (l : List (String × α))
    (h : SortedKeys l) : mapFromList l = l := by
  unfold mapFromList
  have := mapFromList_go l [] (by simpa using h)
  simpa using this

/-! ## The supported `sql::Value` / `sql::Kind` variant set

Mirrors of the surrealdb value and kind algebra, restricted to the
variant set the transfer engine supports (`value.rs`, `kind.rs`; the
unsupported variants hit `todo!()`/`Err(UnsupportedKind)` in the
source and are outside the model).  `float` carries the raw `f64` bit
pattern; float equality in the algebra is bitwise, per the
specification.  `Duration` and `Uuid` payloads are modelled from the
spec (`Duration(seconds, nanos)`, `Uuid(16 bytes)`): the files
`duration.rs` and `uuid.rs` of `surrealism-types` are not part of the
provided sources; both are plain copied payloads in `value.rs`. -/

/-- Model of the supported `sql::Number` variants (`Decimal` is
unsupported: `number.rs` hits `todo!()` on it). -/
inductive SqlNumber where
  | int (i : Int) : SqlNumber
  | float (bits : Nat) : SqlNumber

mutual
/-- Model of the supported `sql::Value` variants. -/
inductive SqlValue where
  | none : SqlValue
  | null : SqlValue
  | bool (b : Bool) : SqlValue
  | number (n : SqlNumber) : SqlValue
  | strand (s : String) : SqlValue
  | duration (secs nanos : Nat) : SqlValue
  | datetime (secs : Int) (nanos : Nat) : SqlValue
  | uuid (bytes : List Nat) : SqlValue
  | array (elems : List SqlValue) : SqlValue
  | object (entries : List (String × SqlValue)) : SqlValue
  | bytes (data : List Nat) : SqlValue
  | thing (tb : String) (id : SqlId) : SqlValue

/-- Model of the supported `sql::Id` variants (`Generate` is
unsupported: `thing.rs` hits `todo!()` on it). -/
inductive SqlId where
  | number (i : Int) : SqlId
  | string (s : String) : SqlId
  | array (elems : List SqlValue) : SqlId
  | object (entries : List (String × SqlValue)) : SqlId
end

mutual
/-- Model of the supported `sql::Kind` variants: everything
`kind.rs` converts, with the catch-all `Err(UnsupportedKind)` variants
outside the model. -/
inductive SqlKind where
  | any : SqlKind
  | null : SqlKind
  | bool : SqlKind
  | bytes : SqlKind
  | datetime : SqlKind
  | decimal : SqlKind
  | duration : SqlKind
  | float : SqlKind
  | int : SqlKind
  | number : SqlKind
  | object : SqlKind
  | point : SqlKind
  | string : SqlKind
  | uuid : SqlKind
  | regex : SqlKind
  | record (tables : List String) : SqlKind
  | geometry (tags : List String) : SqlKind
  | option (inner : SqlKind) : SqlKind
  | either (ks : List SqlKind) : SqlKind
  | set (inner : SqlKind) (len : Option Nat) : SqlKind
  | array (inner : SqlKind) (len : Option Nat) : SqlKind
  | function (args : Option (List SqlKind)) (ret : Option SqlKind) : SqlKind
  | range : SqlKind
  | literal (l : SqlLiteral) : SqlKind

/-- Model of the supported `sql::Literal` variants (`kind.rs`). -/
inductive SqlLiteral where
  | string (s : String) : SqlLiteral
  | number (n : SqlNumber) : SqlLiteral
  | duration (secs nanos : Nat) : SqlLiteral
  | bool (b : Bool) : SqlLiteral
  | array (ks : List SqlKind) : SqlLiteral
  | object (entries : List (String × SqlKind)) : SqlLiteral
  | discObject (key : String) (variants : List (List (String × SqlKind))) : SqlLiteral
end

/-! ## Datetime reconstruction (model of `chrono::DateTime::from_timestamp`)

Modelled from the spec: `datetime.rs` defers range checking entirely to
the external chrono crate, whose `DateTime::<Utc>::from_timestamp`
accepts a pair `(secs, nsecs)` exactly when `secs` lies in the window of
representable instants (years -262144 to 262143) and `nsecs` is below
two billion (values at or above one billion denote leap seconds).  The
exact endpoints below are those of that window; the claims only depend
on the window containing 0 and excluding `i64::MAX`. -/

def chronoMinSecs : Int := -8334632851200

def chronoMaxSecs : Int := 8210298412799

/-- Whether `chrono::DateTime::from_timestamp(secs, nanos)` succeeds. -/
def chronoOk (secs : Int) (nanos : Nat) : Bool :=
  decide (chronoMinSecs ≤ secs) && decide (secs ≤ chronoMaxSecs) &&
    decide (nanos < 2000000000)

/-! ## Well-formedness of the source algebra

`wfValue v` states the invariants every real `sql::Value` satisfies:
object iteration sequences are strictly ascending with unique keys (they
come from a `BTreeMap`), and every datetime is a real instant (it is
stored as a `chrono::DateTime`). -/

mutual
def wfValue : SqlValue → Bool
  | SqlValue.none => true
  | SqlValue.null => true
  | SqlValue.bool _ => true
  | SqlValue.number _ => true
  | SqlValue.strand _ => true
  | SqlValue.duration _ _ => true
  | SqlValue.datetime s n => chronoOk s n
  | SqlValue.uuid _ => true
  | SqlValue.array es => wfValueList es
  | SqlValue.object en => sortedKeysB en && wfEntryList en
  | SqlValue.bytes _ => true
  | SqlValue.thing _ id => wfId id

def wfId : SqlId → Bool
  | SqlId.number _ => true
  | SqlId.string _ => true
  | SqlId.array es => wfValueList es
  | SqlId.object en => sortedKeysB en && wfEntryList en

def wfValueList : List SqlValue → Bool
  | [] => true
  | v :: r => wfValue v && wfValueList r

def wfEntryList : List (String × SqlValue) → Bool
  | [] => true
  | (_, v) :: r => wfValue v && wfEntryList r
end

mutual
def wfKind : SqlKind → Bool
  | SqlKind.option k => wfKind k
  | SqlKind.either ks => wfKindList ks
  | SqlKind.set k _ => wfKind k
  | SqlKind.array k _ => wfKind k
  | SqlKind.function args ret =>
    (match args with
     | Option.none => true
     | Option.some ks => wfKindList ks) &&
    (match ret with
     | Option.none => true
     | Option.some k => wfKind k)
  | SqlKind.literal l => wfLiteral l
  | _ => true

def wfLiteral : SqlLiteral → Bool
  | SqlLiteral.array ks => wfKindList ks
  | SqlLiteral.object en => sortedKeysB en && wfKindEntryList en
  | SqlLiteral.discObject _ vs => wfVariantList vs
  | _ => true

def wfKindList : List SqlKind → Bool
  | [] => true
  | k :: r => wfKind k && wfKindList r

def wfKindEntryList : List (String × SqlKind) → Bool
  | [] => true
  | (_, k) :: r => wfKind k && wfKindEntryList r

def wfVariantList : List (List (String × SqlKind)) → Bool
  | [] => true
  | m :: r => sortedKeysB m && wfKindEntryList m && wfVariantList r
end

/-! ## The transfer engine, guest-memory side: encoding

Faithful translations of `IntoTransferrable` from `value.rs`,
`string.rs`, `object.rs`, `bytes.rs`, `thing.rs`, `array.rs` and
`kind.rs`, in the exact allocation order of the source: inner payload
blocks are allocated before the block that references them. -/

/-- `From<sql::Number> for Number` (`number.rs`). -/
def encodeNumber : SqlNumber → TNumber
  | SqlNumber.int i => TNumber.int i
  | SqlNumber.float b => TNumber.float b

/-- `Vec<u8>::into_transferrable` (`array.rs`): one block of bytes. -/
def encodeBytesBlock (bs : List Nat) (h : Heap) : TArr × Heap :=
  let pa := h.alloc (bs.map HVal.byte)
  (⟨pa.1, bs.length⟩, pa.2)

mutual
/-- `IntoTransferrable<Value> for sql::Value` (`value.rs`). -/
def encodeValue : SqlValue → Heap → TValue × Heap
  | SqlValue.none, h => (TValue.none, h)
  | SqlValue.null, h => (TValue.null, h)
  | SqlValue.bool b, h => (TValue.bool b, h)
  | SqlValue.number n, h => (TValue.number (encodeNumber n), h)
  | SqlValue.strand s, h =>
    let ta := encodeBytesBlock (strBytes s) h
    (TValue.strand ta.1, ta.2)
  | SqlValue.duration s n, h => (TValue.duration s n, h)
  | SqlValue.datetime s n, h => (TValue.datetime s n, h)
  | SqlValue.uuid bs, h => (TValue.uuid bs, h)
  | SqlValue.array es, h =>
    let tsh := encodeValueList es h
    let pa := tsh.2.alloc (tsh.1.map HVal.value)
    (TValue.array ⟨pa.1, tsh.1.length⟩, pa.2)
  | SqlValue.object en, h =>
    let psh := encodeEntryList en h
    let pa := psh.2.alloc (psh.1.map (fun e => HVal.kvpairV e.1 e.2))
    (TValue.object ⟨pa.1, psh.1.length⟩, pa.2)
  | SqlValue.bytes bs, h =>
    let ta := encodeBytesBlock bs h
    (TValue.bytes ta.1, ta.2)
  | SqlValue.thing tb id, h =>
    let ta := encodeBytesBlock (strBytes tb) h
    let tih := encodeId id ta.2
    (TValue.thing ta.1 tih.1, tih.2)

/-- The `Id` arm of `Transferrable<Thing> for sql::Thing` (`thing.rs`). -/
def encodeId : SqlId → Heap → TId × Heap
  | SqlId.number i, h => (TId.number i, h)
  | SqlId.string s, h =>
    let ta := encodeBytesBlock (strBytes s) h
    (TId.string ta.1, ta.2)
  | SqlId.array es, h =>
    let tsh := encodeValueList es h
    let pa := tsh.2.alloc (tsh.1.map HVal.value)
    (TId.array ⟨pa.1, tsh.1.length⟩, pa.2)
  | SqlId.object en, h =>
    let psh := encodeEntryList en h
    let pa := psh.2.alloc (psh.1.map (fun e => HVal.kvpairV e.1 e.2))
    (TId.object ⟨pa.1, psh.1.length⟩, pa.2)

/-- Element-wise encoding of `sql::Array` (`array.rs`): encode each
element, before the caller allocates the element block. -/
def encodeValueList : List SqlValue → Heap → List TValue × Heap
  | [], h => ([], h)
  | v :: r, h =>
    let th := encodeValue v h
    let tsh := encodeValueList r th.2
    (th.1 :: tsh.1, tsh.2)

/-- Entry-wise encoding of `sql::Object` (`object.rs`): each entry
becomes a `KeyValuePair { key: Strand, value: Value }`, key block
first. -/
def encodeEntryList : List (String × SqlValue) → Heap → List (TArr × TValue) × Heap
  | [], h => ([], h)
  | (k, v) :: r, h =>
    let ta := encodeBytesBlock (strBytes k) h
    let th := encodeValue v ta.2
    let tsh := encodeEntryList r th.2
    ((ta.1, th.1) :: tsh.1, tsh.2)
end

/-- The blanket `Transfer::transfer` (`convert.rs`) for `Value`:
allocate one cell holding the value struct, return its pointer.  This
is the final step of putting a `Value` into guest memory. -/
def transferValue (v : SqlValue) (h : Heap) : Nat × Heap :=
  let th := encodeValue v h
  let pa := th.2.alloc [HVal.value th.1]
  (pa.1, pa.2)

/-! ## The transfer engine: decoding

Faithful translations of `FromTransferrable`/`Transfer::receive`, with
the frees of the source (`array.rs` frees the element block after
copying, `convert.rs` frees the single-value block).  The decoders
follow pointers stored in the heap, so they carry a fuel bound; every
roundtrip theorem shows a concrete sufficient fuel. -/

/-- Read a block and free it (the common `Transfer::receive` step). -/
def readFree (h : Heap) (p : Nat) : Except SrError (List HVal × Heap) :=
  match h.lookup p with
  | Option.some b => Except.ok (b, h.free p)
  | Option.none => Except.error SrError.layoutViolation

def cellsBytes : List HVal → Option (List Nat)
  | [] => Option.some []
  | HVal.byte b :: r => (cellsBytes r).map (fun bs => b :: bs)
  | _ => Option.none

def cellsValues : List HVal → Option (List TValue)
  | [] => Option.some []
  | HVal.value v :: r => (cellsValues r).map (fun vs => v :: vs)
  | _ => Option.none

def cellsPairsV : List HVal → Option (List (TArr × TValue))
  | [] => Option.some []
  | HVal.kvpairV k v :: r => (cellsPairsV r).map (fun ps => (k, v) :: ps)
  | _ => Option.none

def cellsStrands : List HVal → Option (List TArr)
  | [] => Option.some []
  | HVal.strand s :: r => (cellsStrands r).map (fun ss => s :: ss)
  | _ => Option.none

def cellsKinds : List HVal → Option (List TKind)
  | [] => Option.some []
  | HVal.kind k :: r => (cellsKinds r).map (fun ks => k :: ks)
  | _ => Option.none

def cellsTarrs : List HVal → Option (List TArr)
  | [] => Option.some []
  | HVal.tarr a :: r => (cellsTarrs r).map (fun xs => a :: xs)
  | _ => Option.none

def cellsPairsK : List HVal → Option (List (TArr × TKind))
  | [] => Option.some []
  | HVal.kvpairK k v :: r => (cellsPairsK r).map (fun ps => (k, v) :: ps)
  | _ => Option.none

/-- `Vec<T>::from_transferrable` (`array.rs`), specialised by a cell
projection: read the block, take its `len` typed elements, free it. -/
def readArr {α : Type} (proj : List HVal → Option (List α)) (ta : TArr)
    (h : Heap) : Except SrError (List α × Heap) :=
  match readFree h ta.ptr with
  | Except.ok (cells, h1) =>
    match proj cells with
    | Option.some xs =>
      if xs.length = ta.len then Except.ok (xs, h1)
      else Except.error SrError.layoutViolation
    | Option.none => Except.error SrError.layoutViolation
  | Except.error e => Except.error e

/-- `FromTransferrable<Strand> for String` (`string.rs`): decode the
byte block, then `String::from_utf8(..).expect(..)` — failure of the
UTF-8 check is a panic carrying the source message. -/
def decodeStr (ta : TArr) (h : Heap) : Except SrError (String × Heap) :=
  match readArr cellsBytes ta h with
  | Except.ok (bs, h1) =>
    match fromUtf8 bs with
    | Option.some s => Except.ok (s, h1)
    | Option.none =>
      Except.error (SrError.fatal
        "Found non UTF-8 characters while reconstructing string")
  | Except.error e => Except.error e

/-- `From<Number> for sql::Number` (`number.rs`). -/
def decodeNumber : TNumber → SqlNumber
  | TNumber.int i => SqlNumber.int i
  | TNumber.float b => SqlNumber.float b

mutual
/-- `FromTransferrable<Value> for sql::Value` (`value.rs`). -/
def decodeValue : Nat → TValue → Heap → Except SrError (SqlValue × Heap)
  | _, TValue.none, h => Except.ok (SqlValue.none, h)
  | _, TValue.null, h => Except.ok (SqlValue.null, h)
  | _, TValue.bool b, h => Except.ok (SqlValue.bool b, h)
  | _, TValue.number n, h => Except.ok (SqlValue.number (decodeNumber n), h)
  | _, TValue.strand ta, h =>
    match decodeStr ta h with
    | Except.ok (s, h1) => Except.ok (SqlValue.strand s, h1)
    | Except.error e => Except.error e
  | _, TValue.duration s n, h => Except.ok (SqlValue.duration s n, h)
  | _, TValue.datetime s n, h =>
    if chronoOk s n then Except.ok (SqlValue.datetime s n, h)
    else Except.error SrError.invalidDatetime
  | _, TValue.uuid bs, h => Except.ok (SqlValue.uuid bs, h)
  | 0, TValue.array _, _ => Except.error SrError.outOfFuel
  | (fuel + 1), TValue.array ta, h =>
    match readArr cellsValues ta h with
    | Except.ok (ts, h1) =>
      match decodeValueList fuel ts h1 with
      | Except.ok (vs, h2) => Except.ok (SqlValue.array vs, h2)
      | Except.error e => Except.error e
    | Except.error e => Except.error e
  | 0, TValue.object _, _ => Except.error SrError.outOfFuel
  | (fuel + 1), TValue.object ta, h =>
    match readArr cellsPairsV ta h with
    | Except.ok (ps, h1) =>
      match decodeEntryList fuel ps h1 with
      | Except.ok (en, h2) => Except.ok (SqlValue.object (mapFromList en), h2)
      | Except.error e => Except.error e
    | Except.error e => Except.error e
  | _, TValue.bytes ta, h =>
    match readArr cellsBytes ta h with
    | Except.ok (bs, h1) => Except.ok (SqlValue.bytes bs, h1)
    | Except.error e => Except.error e
  | fuel, TValue.thing ta tid, h =>
    match decodeStr ta h with
    | Except.ok (tb, h1) =>
      match decodeId fuel tid h1 with
      | Except.ok (id, h2) => Except.ok (SqlValue.thing tb id, h2)
      | Except.error e => Except.error e
    | Except.error e => Except.error e
termination_by fuel tv h => (fuel, 1)

/-- The `Id` arm of `Transferrable<Thing>` decoding (`thing.rs`). -/
def decodeId : Nat → TId → Heap → Except SrError (SqlId × Heap)
  | _, TId.number i, h => Except.ok (SqlId.number i, h)
  | _, TId.string ta, h =>
    match decodeStr ta h with
    | Except.ok (s, h1) => Except.ok (SqlId.string s, h1)
    | Except.error e => Except.error e
  | 0, TId.array _, _ => Except.error SrError.outOfFuel
  | (fuel + 1), TId.array ta, h =>
    match readArr cellsValues ta h with
    | Except.ok (ts, h1) =>
      match decodeValueList fuel ts h1 with
      | Except.ok (vs, h2) => Except.ok (SqlId.array vs, h2)
      | Except.error e => Except.error e
    | Except.error e => Except.error e
  | 0, TId.object _, _ => Except.error SrError.outOfFuel
  | (fuel + 1), TId.object ta, h =>
    match readArr cellsPairsV ta h with
    | Except.ok (ps, h1) =>
      match decodeEntryList fuel ps h1 with
      | Except.ok (en, h2) => Except.ok (SqlId.object (mapFromList en), h2)
      | Except.error e => Except.error e
    | Except.error e => Except.error e
termination_by fuel tid h => (fuel, 0)

def decodeValueList : Nat → List TValue → Heap → Except SrError (List SqlValue × Heap)
  | _, [], h => Except.ok ([], h)
  | fuel, t :: r, h =>
    match decodeValue fuel t h with
    | Except.ok (v, h1) =>
      match decodeValueList fuel r h1 with
      | Except.ok (vs, h2) => Except.ok (v :: vs, h2)
      | Except.error e => Except.error e
    | Except.error e => Except.error e
termination_by fuel ts h => (fuel, ts.length + 2)

def decodeEntryList : Nat → List (TArr × TValue) → Heap →
    Except SrError (List (String × SqlValue) × Heap)
  | _, [], h => Except.ok ([], h)
  | fuel, (tk, tv) :: r, h =>
    match decodeStr tk h with
    | Except.ok (k, h1) =>
      match decodeValue fuel tv h1 with
      | Except.ok (v, h2) =>
        match decodeEntryList fuel r h2 with
        | Except.ok (en, h3) => Except.ok ((k, v) :: en, h3)
        | Except.error e => Except.error e
      | Except.error e => Except.error e
    | Except.error e => Except.error e
termination_by fuel ps h => (fuel, ps.length + 2)
end

/-- Reading the bytes of a `CResult<Value>` block as a plain `Value`
(the type pun `Controller::invoke` performs, `controller.rs` line 61).
Per the `repr(C)` layout rules both enums are a 32-bit discriminant
followed by a payload union, and the discriminants follow declaration
order, so `Ok` (tag 0) reads as `SR_VALUE_NONE` (tag 0) and `Err`
(tag 1) reads as `SR_VALUE_NULL` (tag 1); both of those `Value`
variants are payload-free, so the payload bytes are ignored. -/
def valueOfCResultBits : TCResultV → TValue
  | TCResultV.ok _ => TValue.none
  | TCResultV.err _ => TValue.null

/-- `Value::receive` (the blanket `Transfer` impl of `convert.rs`):
read the single-value block, free it, then decode the value struct.
When the block actually holds a `CResult<Value>` (as written by the
guest `__sr_fnc__` stub), the raw read reinterprets its bytes per
`valueOfCResultBits`. -/
def receiveValue (fuel : Nat) (p : Nat) (h : Heap) :
    Except SrError (SqlValue × Heap) :=
  match readFree h p with
  | Except.ok ([HVal.value tv], h1) => decodeValue fuel tv h1
  | Except.ok ([HVal.cresultV r], h1) => decodeValue fuel (valueOfCResultBits r) h1
  | Except.ok (_, _) => Except.error SrError.layoutViolation
  | Except.error e => Except.error e

/-- `From<Option<u64>> for COption<u64>` (`utils.rs`). -/
def encodeOptNat : Option Nat → COpt Nat
  | Option.none => COpt.none
  | Option.some n => COpt.some n

/-- `From<COption<u64>> for Option<u64>` (`utils.rs`). -/
def decodeOptNat : COpt Nat → Option Nat
  | COpt.none => Option.none
  | COpt.some n => Option.some n

/-- Encode a `Vec<String>` as a list of `Strand`s (the element loop of
the `Record`/`Geometry` arms of `kind.rs`). -/
def encodeStrandList : List String → Heap → List TArr × Heap
  | [], h => ([], h)
  | s :: r, h =>
    let ta := encodeBytesBlock (strBytes s) h
    let tsh := encodeStrandList r ta.2
    (ta.1 :: tsh.1, tsh.2)

mutual
/-- `IntoTransferrable<Kind> for sql::Kind` (`kind.rs`). -/
def encodeKind : SqlKind → Heap → TKind × Heap
  | SqlKind.any, h => (TKind.any, h)
  | SqlKind.null, h => (TKind.null, h)
  | SqlKind.bool, h => (TKind.bool, h)
  | SqlKind.bytes, h => (TKind.bytes, h)
  | SqlKind.datetime, h => (TKind.datetime, h)
  | SqlKind.decimal, h => (TKind.decimal, h)
  | SqlKind.duration, h => (TKind.duration, h)
  | SqlKind.float, h => (TKind.float, h)
  | SqlKind.int, h => (TKind.int, h)
  | SqlKind.number, h => (TKind.number, h)
  | SqlKind.object, h => (TKind.object, h)
  | SqlKind.point, h => (TKind.point, h)
  | SqlKind.string, h => (TKind.string, h)
  | SqlKind.uuid, h => (TKind.uuid, h)
  | SqlKind.regex, h => (TKind.regex, h)
  | SqlKind.record ts, h =>
    let ssh := encodeStrandList ts h
    let pa := ssh.2.alloc (ssh.1.map HVal.strand)
    (TKind.record ⟨pa.1, ssh.1.length⟩, pa.2)
  | SqlKind.geometry ts, h =>
    let ssh := encodeStrandList ts h
    let pa := ssh.2.alloc (ssh.1.map HVal.strand)
    (TKind.geometry ⟨pa.1, ssh.1.length⟩, pa.2)
  | SqlKind.option k, h =>
    let kh := encodeKind k h
    let pa := kh.2.alloc [HVal.kind kh.1]
    (TKind.option pa.1, pa.2)
  | SqlKind.either ks, h =>
    let ksh := encodeKindList ks h
    let pa := ksh.2.alloc (ksh.1.map HVal.kind)
    (TKind.either ⟨pa.1, ksh.1.length⟩, pa.2)
  | SqlKind.set k len, h =>
    let kh := encodeKind k h
    let pa := kh.2.alloc [HVal.kind kh.1]
    (TKind.set pa.1 (encodeOptNat len), pa.2)
  | SqlKind.array k len, h =>
    let kh := encodeKind k h
    let pa := kh.2.alloc [HVal.kind kh.1]
    (TKind.array pa.1 (encodeOptNat len), pa.2)
  | SqlKind.function args ret, h =>
    let ah :=
      match args, h with
      | Option.none, h => (COpt.none, h)
      | Option.some ks, h =>
        let ksh := encodeKindList ks h
        let pa := ksh.2.alloc (ksh.1.map HVal.kind)
        (COpt.some (⟨pa.1, ksh.1.length⟩ : TArr), pa.2)
    let rh :=
      match ret, ah.2 with
      | Option.none, h1 => (COpt.none, h1)
      | Option.some k, h1 =>
        let kh := encodeKind k h1
        let pa := kh.2.alloc [HVal.kind kh.1]
        (COpt.some pa.1, pa.2)
    (TKind.function ah.1 rh.1, rh.2)
  | SqlKind.range, h => (TKind.range, h)
  | SqlKind.literal l, h =>
    let lh := encodeLiteral l h
    (TKind.literal lh.1, lh.2)

/-- `IntoTransferrable<Literal> for sql::Literal` (`kind.rs`). -/
def encodeLiteral : SqlLiteral → Heap → TLiteral × Heap
  | SqlLiteral.string s, h =>
    let ta := encodeBytesBlock (strBytes s) h
    (TLiteral.string ta.1, ta.2)
  | SqlLiteral.number n, h => (TLiteral.number (encodeNumber n), h)
  | SqlLiteral.duration s n, h => (TLiteral.duration s n, h)
  | SqlLiteral.bool b, h => (TLiteral.bool b, h)
  | SqlLiteral.array ks, h =>
    let ksh := encodeKindList ks h
    let pa := ksh.2.alloc (ksh.1.map HVal.kind)
    (TLiteral.array ⟨pa.1, ksh.1.length⟩, pa.2)
  | SqlLiteral.object en, h =>
    let psh := encodeKindEntryList en h
    let pa := psh.2.alloc (psh.1.map (fun e => HVal.kvpairK e.1 e.2))
    (TLiteral.object ⟨pa.1, psh.1.length⟩, pa.2)
  | SqlLiteral.discObject key vs, h =>
    let ta := encodeBytesBlock (strBytes key) h
    let vsh := encodeVariants vs ta.2
    let pa := vsh.2.alloc (vsh.1.map HVal.tarr)
    (TLiteral.discObject ta.1 ⟨pa.1, vsh.1.length⟩, pa.2)

def encodeKindList : List SqlKind → Heap → List TKind × Heap
  | [], h => ([], h)
  | k :: r, h =>
    let kh := encodeKind k h
    let ksh := encodeKindList r kh.2
    (kh.1 :: ksh.1, ksh.2)

/-- `IntoTransferrable<TransferredArray> for BTreeMap<String, sql::Kind>`
entry loop (`kind.rs`): each entry becomes a
`KeyValuePair<sql::Kind, Kind>`, key block first. -/
def encodeKindEntryList : List (String × SqlKind) → Heap → List (TArr × TKind) × Heap
  | [], h => ([], h)
  | (k, v) :: r, h =>
    let ta := encodeBytesBlock (strBytes k) h
    let kh := encodeKind v ta.2
    let tsh := encodeKindEntryList r kh.2
    ((ta.1, kh.1) :: tsh.1, tsh.2)

/-- The variant loop of the `DiscriminatedObject` arm (`kind.rs`): each
variant map becomes its own `TransferredArray` block. -/
def encodeVariants : List (List (String × SqlKind)) → Heap → List TArr × Heap
  | [], h => ([], h)
  | m :: r, h =>
    let psh := encodeKindEntryList m h
    let pa := psh.2.alloc (psh.1.map (fun e => HVal.kvpairK e.1 e.2))
    let vsh := encodeVariants r pa.2
    ((⟨pa.1, psh.1.length⟩ : TArr) :: vsh.1, vsh.2)
end

/-- The blanket `Transfer::transfer` for `Kind`: one cell holding the
kind struct. -/
def transferKind (k : SqlKind) (h : Heap) : Nat × Heap :=
  let kh := encodeKind k h
  let pa := kh.2.alloc [HVal.kind kh.1]
  (pa.1, pa.2)

/-- Decode a list of `Strand`s back to `Vec<String>` (the
`Record`/`Geometry` decode loop of `kind.rs`). -/
def decodeStrList : List TArr → Heap → Except SrError (List String × Heap)
  | [], h => Except.ok ([], h)
  | ta :: r, h =>
    match decodeStr ta h with
    | Except.ok (s, h1) =>
      match decodeStrList r h1 with
      | Except.ok (ss, h2) => Except.ok (s :: ss, h2)
      | Except.error e => Except.error e
    | Except.error e => Except.error e

mutual
/-- `FromTransferrable<Kind> for sql::Kind` (`kind.rs`). -/
def decodeKind : Nat → TKind → Heap → Except SrError (SqlKind × Heap)
  | _, TKind.any, h => Except.ok (SqlKind.any, h)
  | _, TKind.null, h => Except.ok (SqlKind.null, h)
  | _, TKind.bool, h => Except.ok (SqlKind.bool, h)
  | _, TKind.bytes, h => Except.ok (SqlKind.bytes, h)
  | _, TKind.datetime, h => Except.ok (SqlKind.datetime, h)
  | _, TKind.decimal, h => Except.ok (SqlKind.decimal, h)
  | _, TKind.duration, h => Except.ok (SqlKind.duration, h)
  | _, TKind.float, h => Except.ok (SqlKind.float, h)
  | _, TKind.int, h => Except.ok (SqlKind.int, h)
  | _, TKind.number, h => Except.ok (SqlKind.number, h)
  | _, TKind.object, h => Except.ok (SqlKind.object, h)
  | _, TKind.point, h => Except.ok (SqlKind.point, h)
  | _, TKind.string, h => Except.ok (SqlKind.string, h)
  | _, TKind.uuid, h => Except.ok (SqlKind.uuid, h)
  | _, TKind.regex, h => Except.ok (SqlKind.regex, h)
  | _, TKind.record ta, h =>
    match readArr cellsStrands ta h with
    | Except.ok (ss, h1) =>
      match decodeStrList ss h1 with
      | Except.ok (ts, h2) => Except.ok (SqlKind.record ts, h2)
      | Except.error e => Except.error e
    | Except.error e => Except.error e
  | _, TKind.geometry ta, h =>
    match readArr cellsStrands ta h with
    | Except.ok (ss, h1) =>
      match decodeStrList ss h1 with
      | Except.ok (ts, h2) => Except.ok (SqlKind.geometry ts, h2)
      | Except.error e => Except.error e
    | Except.error e => Except.error e
  | 0, TKind.option _, _ => Except.error SrError.outOfFuel
  | (fuel + 1), TKind.option p, h =>
    match readFree h p with
    | Except.ok ([HVal.kind tk], h1) =>
      match decodeKind fuel tk h1 with
      | Except.ok (k, h2) => Except.ok (SqlKind.option k, h2)
      | Except.error e => Except.error e
    | Except.ok (_, _) => Except.error SrError.layoutViolation
    | Except.error e => Except.error e
  | 0, TKind.either _, _ => Except.error SrError.outOfFuel
  | (fuel + 1), TKind.either ta, h =>
    match readArr cellsKinds ta h with
    | Except.ok (ts, h1) =>
      match decodeKindList fuel ts h1 with
      | Except.ok (ks, h2) => Except.ok (SqlKind.either ks, h2)
      | Except.error e => Except.error e
    | Except.error e => Except.error e
  | 0, TKind.set _ _, _ => Except.error SrError.outOfFuel
  | (fuel + 1), TKind.set p len, h =>
    match readFree h p with
    | Except.ok ([HVal.kind tk], h1) =>
      match decodeKind fuel tk h1 with
      | Except.ok (k, h2) => Except.ok (SqlKind.set k (decodeOptNat len), h2)
      | Except.error e => Except.error e
    | Except.ok (_, _) => Except.error SrError.layoutViolation
    | Except.error e => Except.error e
  | 0, TKind.array _ _, _ => Except.error SrError.outOfFuel
  | (fuel + 1), TKind.array p len, h =>
    match readFree h p with
    | Except.ok ([HVal.kind tk], h1) =>
      match decodeKind fuel tk h1 with
      | Except.ok (k, h2) => Except.ok (SqlKind.array k (decodeOptNat len), h2)
      | Except.error e => Except.error e
    | Except.ok (_, _) => Except.error SrError.layoutViolation
    | Except.error e => Except.error e
  | 0, TKind.function _ _, _ => Except.error SrError.outOfFuel
  | (fuel + 1), TKind.function args ret, h =>
    match
      (match args, h with
       | COpt.none, h => Except.ok ((Option.none : Option (List SqlKind)), h)
       | COpt.some ta, h =>
         match readArr cellsKinds ta h with
         | Except.ok (ts, h1) =>
           match decodeKindList fuel ts h1 with
           | Except.ok (ks, h2) => Except.ok (Option.some ks, h2)
           | Except.error e => Except.error e
         | Except.error e => Except.error e) with
    | Except.ok (oks, h1) =>
      match
        (match ret, h1 with
         | COpt.none, h1 => Except.ok ((Option.none : Option SqlKind), h1)
         | COpt.some p, h1 =>
           match readFree h1 p with
           | Except.ok ([HVal.kind tk], h2) =>
             match decodeKind fuel tk h2 with
             | Except.ok (k, h3) => Except.ok (Option.some k, h3)
             | Except.error e => Except.error e
           | Except.ok (_, _) => Except.error SrError.layoutViolation
           | Except.error e => Except.error e) with
      | Except.ok (ork, h2) => Except.ok (SqlKind.function oks ork, h2)
      | Except.error e => Except.error e
    | Except.error e => Except.error e
  | _, TKind.range, h => Except.ok (SqlKind.range, h)
  | fuel, TKind.literal l, h =>
    match decodeLiteral fuel l h with
    | Except.ok (sl, h1) => Except.ok (SqlKind.literal sl, h1)
    | Except.error e => Except.error e
termination_by fuel tk h => (fuel, 2)

/-- `FromTransferrable<Literal> for sql::Literal` (`kind.rs`). -/
def decodeLiteral : Nat → TLiteral → Heap → Except SrError (SqlLiteral × Heap)
  | _, TLiteral.string ta, h =>
    match decodeStr ta h with
    | Except.ok (s, h1) => Except.ok (SqlLiteral.string s, h1)
    | Except.error e => Except.error e
  | _, TLiteral.number n, h => Except.ok (SqlLiteral.number (decodeNumber n), h)
  | _, TLiteral.duration s n, h => Except.ok (SqlLiteral.duration s n, h)
  | _, TLiteral.bool b, h => Except.ok (SqlLiteral.bool b, h)
  | 0, TLiteral.array _, _ => Except.error SrError.outOfFuel
  | (fuel + 1), TLiteral.array ta, h =>
    match readArr cellsKinds ta h with
    | Except.ok (ts, h1) =>
      match decodeKindList fuel ts h1 with
      | Except.ok (ks, h2) => Except.ok (SqlLiteral.array ks, h2)
      | Except.error e => Except.error e
    | Except.error e => Except.error e
  | 0, TLiteral.object _, _ => Except.error SrError.outOfFuel
  | (fuel + 1), TLiteral.object ta, h =>
    match readArr cellsPairsK ta h with
    | Except.ok (ps, h1) =>
      match decodeKindEntryList fuel ps h1 with
      | Except.ok (en, h2) => Except.ok (SqlLiteral.object (mapFromList en), h2)
      | Except.error e => Except.error e
    | Except.error e => Except.error e
  | 0, TLiteral.discObject _ _, _ => Except.error SrError.outOfFuel
  | (fuel + 1), TLiteral.discObject key vta, h =>
    match decodeStr key h with
    | Except.ok (k, h1) =>
      match readArr cellsTarrs vta h1 with
      | Except.ok (tas, h2) =>
        match decodeVariants fuel tas h2 with
        | Except.ok (vs, h3) => Except.ok (SqlLiteral.discObject k vs, h3)
        | Except.error e => Except.error e
      | Except.error e => Except.error e
    | Except.error e => Except.error e
termination_by fuel l h => (fuel, 1)

def decodeKindList : Nat → List TKind → Heap → Except SrError (List SqlKind × Heap)
  | _, [], h => Except.ok ([], h)
  | fuel, t :: r, h =>
    match decodeKind fuel t h with
    | Except.ok (k, h1) =>
      match decodeKindList fuel r h1 with
      | Except.ok (ks, h2) => Except.ok (k :: ks, h2)
      | Except.error e => Except.error e
    | Except.error e => Except.error e
termination_by fuel ts h => (fuel, ts.length + 3)

/-- `FromTransferrable<TransferredArray> for BTreeMap<String, sql::Kind>`
entry decode loop (`kind.rs`). -/
def decodeKindEntryList : Nat → List (TArr × TKind) → Heap →
    Except SrError (List (String × SqlKind) × Heap)
  | _, [], h => Except.ok ([], h)
  | fuel, (tk, tv) :: r, h =>
    match decodeStr tk h with
    | Except.ok (k, h1) =>
      match decodeKind fuel tv h1 with
      | Except.ok (v, h2) =>
        match decodeKindEntryList fuel r h2 with
        | Except.ok (en, h3) => Except.ok ((k, v) :: en, h3)
        | Except.error e => Except.error e
      | Except.error e => Except.error e
    | Except.error e => Except.error e
termination_by fuel ps h => (fuel, ps.length + 3)

/-- The variant decode loop of the `DiscriminatedObject` arm
(`kind.rs`): each variant block decodes to a `BTreeMap`. -/
def decodeVariants : Nat → List TArr → Heap →
    Except SrError (List (List (String × SqlKind)) × Heap)
  | _, [], h => Except.ok ([], h)
  | 0, _ :: _, _ => Except.error SrError.outOfFuel
  | (fuel + 1), ta :: r, h =>
    match readArr cellsPairsK ta h with
    | Except.ok (ps, h1) =>
      match decodeKindEntryList fuel ps h1 with
      | Except.ok (en, h2) =>
        match decodeVariants (fuel + 1) r h2 with
        | Except.ok (vs, h3) => Except.ok (mapFromList en :: vs, h3)
        | Except.error e => Except.error e
      | Except.error e => Except.error e
    | Except.error e => Except.error e
termination_by fuel vs h => (fuel, vs.length + 3)
end

/-- `Kind::receive` (the blanket `Transfer` impl): read the single-kind
block, free it, decode the kind struct. -/
def receiveKind (fuel : Nat) (p : Nat) (h : Heap) :
    Except SrError (SqlKind × Heap) :=
  match readFree h p with
  | Except.ok ([HVal.kind tk], h1) => decodeKind fuel tk h1
  | Except.ok (_, _) => Except.error SrError.layoutViolation
  | Except.error e => Except.error e

/-! ## Separation infrastructure for the roundtrip proofs

`EncOk h h1` captures what every encoder does to the heap: it bumps the
bump-pointer and touches no block outside the fresh range.
`AgreeOn g href lo hi` says `g` holds the same blocks as the reference
heap `href` on `[lo, hi)`.  `ClearRange g g1 lo hi` says `g1` is `g`
with exactly the blocks of `[lo, hi)` freed.  `DecSpec` packages the
decoder contract: on any heap agreeing with the post-encode heap on the
fresh range, the decoder returns the original value and frees exactly
the fresh range. -/

def AgreeOn (g href : Heap) (lo hi : Nat) : Prop :=
  ∀ p, lo ≤ p → p < hi → g.lookup p = href.lookup p

def ClearRange (g g1 : Heap) (lo hi : Nat) : Prop :=
  ∀ p, g1.lookup p = if lo ≤ p ∧ p < hi then Option.none else g.lookup p

structure EncOk (h h1 : Heap) : Prop where
  next_le : h.next ≤ h1.next
  outside : ∀ p, p < h.next ∨ h1.next ≤ p → h1.lookup p = h.lookup p

def DecSpec {α : Type} (bound : Nat)
    (dec : Nat → Heap → Except SrError (α × Heap))
    (href : Heap) (lo hi : Nat) (x : α) : Prop :=
  ∀ fuel g, bound ≤ fuel → AgreeOn g href lo hi →
    ∃ g1, dec fuel g = Except.ok (x, g1) ∧ ClearRange g g1 lo hi

theorem EncOk.refl (h : Heap) : EncOk h h :=
  ⟨Nat.le_refl _, fun _ _ => rfl⟩

theorem EncOk.trans {h h1 h2 : Heap} (a : EncOk h h1) (b : EncOk h1 h2) :
    EncOk h h2 := by
  refine ⟨Nat.le_trans a.next_le b.next_le, ?_⟩
  intro p hp
  have hb : h2.lookup p = h1.lookup p := by
    refine b.outside p ?_
    rcases hp with hlt | hge
    · exact Or.inl (Nat.lt_of_lt_of_le hlt a.next_le)
    · exact Or.inr hge
  have ha : h1.lookup p = h.lookup p := by
    refine a.outside p ?_
    rcases hp with hlt | hge
    · exact Or.inl hlt
    · exact Or.inr (Nat.le_trans b.next_le hge)
  rw [hb, ha]

theorem EncOk.alloc (h : Heap) (b : Block) : EncOk h (h.alloc b).2 := by
  refine ⟨by rw [Heap.alloc_next]; omega, ?_⟩
  intro p hp
  rw [Heap.lookup_alloc]
  have : ¬ h.next = p := by
    rw [Heap.alloc_next] at hp
    omega
  rw [if_neg this]

theorem AgreeOn.mono {g href : Heap} {lo hi lo1 hi1 : Nat}
    (a : AgreeOn g href lo hi) (h1 : lo ≤ lo1) (h2 : hi1 ≤ hi) :
    AgreeOn g href lo1 hi1 :=
  fun p hp1 hp2 => a p (Nat.le_trans h1 hp1) (Nat.lt_of_lt_of_le hp2 h2)

theorem AgreeOn.same (h : Heap) (lo hi : Nat) : AgreeOn h h lo hi :=
  fun _ _ _ => rfl

/-- After clearing `[lo, mid)`, agreement on `[mid, hi)` survives. -/
theorem AgreeOn.after_clear {g g1 href : Heap} {lo mid hi : Nat}
    (c : ClearRange g g1 lo mid) (a : AgreeOn g href mid hi) :
    AgreeOn g1 href mid hi := by
  intro p hp1 hp2
  have := c p
  rw [this, if_neg (by omega)]
  exact a p hp1 hp2

theorem ClearRange.empty (g : Heap) (lo : Nat) : ClearRange g g lo lo := by
  intro p
  rw [if_neg (by omega)]

/-- Clearing `[lo, mid)` then `[mid, hi)` clears `[lo, hi)`. -/
theorem ClearRange.comp_lh {g g1 g2 : Heap} {lo mid hi : Nat}
    (c1 : ClearRange g g1 lo mid) (c2 : ClearRange g1 g2 mid hi)
    (h1 : lo ≤ mid) (h2 : mid ≤ hi) : ClearRange g g2 lo hi := by
  intro p
  rw [c2 p, c1 p]
  by_cases hp1 : mid ≤ p ∧ p < hi
  · rw [if_pos hp1, if_pos (by omega)]
  · by_cases hp2 : lo ≤ p ∧ p < mid
    · rw [if_neg hp1, if_pos hp2, if_pos (by omega)]
    · rw [if_neg hp1, if_neg hp2, if_neg (by omega)]

/-- Clearing `[mid, hi)` then `[lo, mid)` clears `[lo, hi)`. -/
theorem ClearRange.comp_hl {g g1 g2 : Heap} {lo mid hi : Nat}
    (c1 : ClearRange g g1 mid hi) (c2 : ClearRange g1 g2 lo mid)
    (h1 : lo ≤ mid) (h2 : mid ≤ hi) : ClearRange g g2 lo hi := by
  intro p
  rw [c2 p, c1 p]
  by_cases hp1 : lo ≤ p ∧ p < mid
  · rw [if_pos hp1, if_pos (by omega)]
  · by_cases hp2 : mid ≤ p ∧ p < hi
    · rw [if_neg hp1, if_pos hp2, if_pos (by omega)]
    · rw [if_neg hp1, if_neg hp2, if_neg (by omega)]

theorem ClearRange.free (g : Heap) (p : Nat) :
    ClearRange g (g.free p) p (p + 1) := by
  intro q
  rw [Heap.lookup_free]
  by_cases hq : q = p
  · rw [if_pos hq, if_pos (by omega)]
  · rw [if_neg hq, if_neg (by omega)]

theorem DecSpec.widen {α : Type} {b1 b2 : Nat}
    {dec : Nat → Heap → Except SrError (α × Heap)} {href : Heap}
    {lo hi : Nat} {x : α} (s : DecSpec b1 dec href lo hi x) (hb : b1 ≤ b2) :
    DecSpec b2 dec href lo hi x :=
  fun fuel g hf ha => s fuel g (Nat.le_trans hb hf) ha

theorem cellsBytes_map (l : List Nat) :
    cellsBytes (l.map HVal.byte) = Option.some l := by
  induction l with
  | nil => rfl
  | cons b r ih => simp [cellsBytes, ih]

theorem cellsValues_map (l : List TValue) :
    cellsValues (l.map HVal.value) = Option.some l := by
  induction l with
  | nil => rfl
  | cons v r ih => simp [cellsValues, ih]

theorem cellsPairsV_map (l : List (TArr × TValue)) :
    cellsPairsV (l.map (fun e => HVal.kvpairV e.1 e.2)) = Option.some l := by
  induction l with
  | nil => rfl
  | cons v r ih => simp [cellsPairsV, ih]

theorem cellsStrands_map (l : List TArr) :
    cellsStrands (l.map HVal.strand) = Option.some l := by
  induction l with
  | nil => rfl
  | cons v r ih => simp [cellsStrands, ih]

theorem cellsKinds_map (l : List TKind) :
    cellsKinds (l.map HVal.kind) = Option.some l := by
  induction l with
  | nil => rfl
  | cons v r ih => simp [cellsKinds, ih]

theorem cellsTarrs_map (l : List TArr) :
    cellsTarrs (l.map HVal.tarr) = Option.some l := by
  induction l with
  | nil => rfl
  | cons v r ih => simp [cellsTarrs, ih]

theorem cellsPairsK_map (l : List (TArr × TKind)) :
    cellsPairsK (l.map (fun e => HVal.kvpairK e.1 e.2)) = Option.some l := by
  induction l with
  | nil => rfl
  | cons v r ih => simp [cellsPairsK, ih]

/-- Reading a freshly written array block out of any agreeing heap:
returns the written elements and frees exactly that block. -/
theorem readArr_spec {α : Type} (proj : List HVal → Option (List α))
    (wrap : α → HVal) (l : List α) (hproj : proj (l.map wrap) = Option.some l)
    (h1 : Heap) (g : Heap)
    (ha : AgreeOn g ((h1.alloc (l.map wrap)).2) h1.next (h1.next + 1)) :
    readArr proj ⟨h1.next, l.length⟩ g = Except.ok (l, g.free h1.next) ∧
      ClearRange g (g.free h1.next) h1.next (h1.next + 1) := by
  have hlook : g.lookup h1.next = Option.some (l.map wrap) := by
    have := ha h1.next (Nat.le_refl _) (by omega)
    rw [this, Heap.lookup_alloc, if_pos rfl]
  constructor
  · unfold readArr readFree
    rw [hlook]
    simp only [hproj]
    rw [if_pos (by simp)]
  · exact ClearRange.free g h1.next

/-- Reading a freshly written single-cell block (the blanket
`Transfer::receive` read). -/
theorem readCell_spec (c : HVal) (h1 : Heap) (g : Heap)
    (ha : AgreeOn g ((h1.alloc [c]).2) h1.next (h1.next + 1)) :
    readFree g h1.next = Except.ok ([c], g.free h1.next) ∧
      ClearRange g (g.free h1.next) h1.next (h1.next + 1) := by
  have hlook : g.lookup h1.next = Option.some [c] := by
    have := ha h1.next (Nat.le_refl _) (by omega)
    rw [this, Heap.lookup_alloc, if_pos rfl]
  constructor
  · unfold readFree
    rw [hlook]
  · exact ClearRange.free g h1.next

/-- Encoding then decoding a string: the byte block written by
`encodeBytesBlock (strBytes s)` decodes back to `s` and is freed. -/
theorem decodeStr_spec (s : String) (h : Heap) (g : Heap)
    (ha : AgreeOn g ((encodeBytesBlock (strBytes s) h).2) h.next (h.next + 1)) :
    decodeStr (encodeBytesBlock (strBytes s) h).1 g =
      Except.ok (s, g.free h.next) ∧
      ClearRange g (g.free h.next) h.next (h.next + 1) := by
  have hread := readArr_spec cellsBytes HVal.byte (strBytes s)
    (cellsBytes_map _) h g ha
  constructor
  · unfold decodeStr
    have harg : (encodeBytesBlock (strBytes s) h).1 =
        (⟨h.next, (strBytes s).length⟩ : TArr) := rfl
    rw [harg, hread.1]
    simp only [fromUtf8_strBytes]
  · exact hread.2

theorem encodeBytesBlock_encOk (bs : List Nat) (h : Heap) :
    EncOk h (encodeBytesBlock bs h).2 := EncOk.alloc h _

theorem encodeBytesBlock_next (bs : List Nat) (h : Heap) :
    ((encodeBytesBlock bs h).2).next = h.next + 1 := rfl

/-! ## Fuel bounds

`fsizeX x` is the pointer-nesting depth of `x`: any fuel at least this
bound suffices for the decoder. -/

mutual
def fsizeValue : SqlValue → Nat
  | SqlValue.array es => fsizeValueList es + 1
  | SqlValue.object en => fsizeEntryList en + 1
  | SqlValue.thing _ id => fsizeId id
  | _ => 0

def fsizeId : SqlId → Nat
  | SqlId.array es => fsizeValueList es + 1
  | SqlId.object en => fsizeEntryList en + 1
  | _ => 0

def fsizeValueList : List SqlValue → Nat
  | [] => 0
  | v :: r => max (fsizeValue v) (fsizeValueList r)

def fsizeEntryList : List (String × SqlValue) → Nat
  | [] => 0
  | (_, v) :: r => max (fsizeValue v) (fsizeEntryList r)
end

mutual
def fsizeKind : SqlKind → Nat
  | SqlKind.option k => fsizeKind k + 1
  | SqlKind.either ks => fsizeKindList ks + 1
  | SqlKind.set k _ => fsizeKind k + 1
  | SqlKind.array k _ => fsizeKind k + 1
  | SqlKind.function args ret =>
    (match args with
     | Option.none => 0
     | Option.some ks => fsizeKindList ks) +
    (match ret with
     | Option.none => 0
     | Option.some k => fsizeKind k) + 1
  | SqlKind.literal l => fsizeLiteral l
  | _ => 0

def fsizeLiteral : SqlLiteral → Nat
  | SqlLiteral.array ks => fsizeKindList ks + 1
  | SqlLiteral.object en => fsizeKindEntryList en + 1
  | SqlLiteral.discObject _ vs => fsizeVariants vs + 1
  | _ => 0

def fsizeKindList : List SqlKind → Nat
  | [] => 0
  | k :: r => max (fsizeKind k) (fsizeKindList r)

def fsizeKindEntryList : List (String × SqlKind) → Nat
  | [] => 0
  | (_, k) :: r => max (fsizeKind k) (fsizeKindEntryList r)

def fsizeVariants : List (List (String × SqlKind)) → Nat
  | [] => 0
  | m :: r => max (fsizeKindEntryList m + 1) (fsizeVariants r)
end

mutual
/-- Encoding a well-formed `sql::Value` writes only fresh blocks, and
decoding the result from any heap that agrees on those blocks returns
the original value and frees exactly those blocks. -/
theorem encodeValue_spec : ∀ (v : SqlValue) (h : Heap), wfValue v = true →
    EncOk h (encodeValue v h).2 ∧
    DecSpec (fsizeValue v)
      (fun fuel g => decodeValue fuel (encodeValue v h).1 g)
      ((encodeValue v h).2) h.next ((encodeValue v h).2).next v
  | SqlValue.none, h, hwf => by
    exact ⟨EncOk.refl h, fun fuel g _ _ =>
      ⟨g, by simp [encodeValue, decodeValue], ClearRange.empty g _⟩⟩
  | SqlValue.null, h, hwf => by
    exact ⟨EncOk.refl h, fun fuel g _ _ =>
      ⟨g, by simp [encodeValue, decodeValue], ClearRange.empty g _⟩⟩
  | SqlValue.bool b, h, hwf => by
    exact ⟨EncOk.refl h, fun fuel g _ _ =>
      ⟨g, by simp [encodeValue, decodeValue], ClearRange.empty g _⟩⟩
  | SqlValue.number n, h, hwf => by
    refine ⟨EncOk.refl h, fun fuel g _ _ => ⟨g, ?_, ClearRange.empty g _⟩⟩
    cases n <;> simp [encodeValue, decodeValue, encodeNumber, decodeNumber]
  | SqlValue.strand s, h, hwf => by
    refine ⟨encodeBytesBlock_encOk _ h, fun fuel g _ ha => ?_⟩
    have hs := decodeStr_spec s h g (by
      simpa [encodeValue, encodeBytesBlock_next] using ha)
    refine ⟨g.free h.next, ?_, by
      simpa [encodeValue, encodeBytesBlock_next] using hs.2⟩
    simp only [encodeValue, decodeValue]
    rw [hs.1]
  | SqlValue.duration sd nd, h, hwf => by
    exact ⟨EncOk.refl h, fun fuel g _ _ =>
      ⟨g, by simp [encodeValue, decodeValue], ClearRange.empty g _⟩⟩
  | SqlValue.datetime sd nd, h, hwf => by
    refine ⟨EncOk.refl h, fun fuel g _ _ => ⟨g, ?_, ClearRange.empty g _⟩⟩
    have hok : chronoOk sd nd = true := by simpa [wfValue] using hwf
    simp [encodeValue, decodeValue, hok]
  | SqlValue.uuid bs, h, hwf => by
    exact ⟨EncOk.refl h, fun fuel g _ _ =>
      ⟨g, by simp [encodeValue, decodeValue], ClearRange.empty g _⟩⟩
  | SqlValue.array es, h, hwf => by
    have hwfl : wfValueList es = true := by simpa [wfValue] using hwf
    have ihl := encodeValueList_spec es h hwfl
    have henc : EncOk h ((encodeValueList es h).2.alloc
        ((encodeValueList es h).1.map HVal.value)).2 :=
      EncOk.trans ihl.1 (EncOk.alloc _ _)
    refine ⟨by simpa [encodeValue] using henc, ?_⟩
    intro fuel g hf ha
    simp only [encodeValue] at ha ⊢
    cases fuel with
    | zero => exact absurd hf (by simp [fsizeValue])
    | succ f =>
      have hff : fsizeValueList es ≤ f := by
        have := hf
        simp only [fsizeValue] at this
        omega
      have h1n : h.next ≤ (encodeValueList es h).2.next := ihl.1.next_le
      have h2n : ((encodeValueList es h).2.alloc
          ((encodeValueList es h).1.map HVal.value)).2.next =
          (encodeValueList es h).2.next + 1 := Heap.alloc_next _ _
      have hread := readArr_spec cellsValues HVal.value
        (encodeValueList es h).1 (cellsValues_map _)
        (encodeValueList es h).2 g
        (AgreeOn.mono ha (by omega) (by omega))
      have hag1 : AgreeOn (g.free (encodeValueList es h).2.next)
          (encodeValueList es h).2 h.next (encodeValueList es h).2.next := by
        intro q hq1 hq2
        have hfree := (hread.2) q
        rw [hfree, if_neg (by omega)]
        have := ha q hq1 (by omega)
        rw [this]
        exact (EncOk.alloc _ _).outside q (Or.inl hq2)
      have hlist := ihl.2 f (g.free (encodeValueList es h).2.next) hff hag1
      obtain ⟨g2, hdec2, hclr2⟩ := hlist
      have hdec2b : decodeValueList f (encodeValueList es h).1
          (g.free (encodeValueList es h).2.next) = Except.ok (es, g2) := hdec2
      refine ⟨g2, ?_, ?_⟩
      · simp only [decodeValue, Heap.alloc_fst, hread.1, hdec2b]
      · exact ClearRange.comp_hl (by simpa [h2n] using hread.2) hclr2
          h1n (by omega)
  | SqlValue.object en, h, hwf => by
    have hwfp : sortedKeysB en = true ∧ wfEntryList en = true := by
      simpa [wfValue] using hwf
    have ihl := encodeEntryList_spec en h hwfp.2
    have henc : EncOk h ((encodeEntryList en h).2.alloc
        ((encodeEntryList en h).1.map (fun e => HVal.kvpairV e.1 e.2))).2 :=
      EncOk.trans ihl.1 (EncOk.alloc _ _)
    refine ⟨by simpa [encodeValue] using henc, ?_⟩
    intro fuel g hf ha
    simp only [encodeValue] at ha ⊢
    cases fuel with
    | zero => exact absurd hf (by simp [fsizeValue])
    | succ f =>
      have hff : fsizeEntryList en ≤ f := by
        have := hf
        simp only [fsizeValue] at this
        omega
      have h1n : h.next ≤ (encodeEntryList en h).2.next := ihl.1.next_le
      have h2n : ((encodeEntryList en h).2.alloc
          ((encodeEntryList en h).1.map (fun e => HVal.kvpairV e.1 e.2))).2.next =
          (encodeEntryList en h).2.next + 1 := Heap.alloc_next _ _
      have hread := readArr_spec cellsPairsV (fun e => HVal.kvpairV e.1 e.2)
        (encodeEntryList en h).1 (cellsPairsV_map _)
        (encodeEntryList en h).2 g
        (AgreeOn.mono ha (by omega) (by omega))
      have hag1 : AgreeOn (g.free (encodeEntryList en h).2.next)
          (encodeEntryList en h).2 h.next (encodeEntryList en h).2.next := by
        intro q hq1 hq2
        have hfree := (hread.2) q
        rw [hfree, if_neg (by omega)]
        have := ha q hq1 (by omega)
        rw [this]
        exact (EncOk.alloc _ _).outside q (Or.inl hq2)
      have hlist := ihl.2 f (g.free (encodeEntryList en h).2.next) hff hag1
      obtain ⟨g2, hdec2, hclr2⟩ := hlist
      have hdec2b : decodeEntryList f (encodeEntryList en h).1
          (g.free (encodeEntryList en h).2.next) = Except.ok (en, g2) := hdec2
      have hmap : mapFromList en = en :=
        mapFromList_sorted en ((sortedKeysB_iff en).mp hwfp.1)
      refine ⟨g2, ?_, ?_⟩
      · simp only [decodeValue, Heap.alloc_fst, hread.1, hdec2b, hmap]
      · exact ClearRange.comp_hl (by simpa [h2n] using hread.2) hclr2
          h1n (by omega)
  | SqlValue.bytes bs, h, hwf => by
    refine ⟨encodeBytesBlock_encOk _ h, fun fuel g _ ha => ?_⟩
    have hread := readArr_spec cellsBytes HVal.byte bs (cellsBytes_map _) h g
      (by simpa [encodeValue, encodeBytesBlock_next] using ha)
    refine ⟨g.free h.next, ?_, by
      simpa [encodeValue, encodeBytesBlock_next] using hread.2⟩
    simp only [encodeValue, decodeValue]
    have harg : (encodeBytesBlock bs h).1 = (⟨h.next, bs.length⟩ : TArr) := rfl
    rw [harg, hread.1]
  | SqlValue.thing tb id, h, hwf => by
    have hwfi : wfId id = true := by simpa [wfValue] using hwf
    have ihi := encodeId_spec id (encodeBytesBlock (strBytes tb) h).2 hwfi
    have hb1 : ((encodeBytesBlock (strBytes tb) h).2).next = h.next + 1 :=
      encodeBytesBlock_next _ h
    have henc : EncOk h (encodeId id (encodeBytesBlock (strBytes tb) h).2).2 :=
      EncOk.trans (encodeBytesBlock_encOk _ h) ihi.1
    refine ⟨by simpa [encodeValue] using henc, ?_⟩
    intro fuel g hf ha
    simp only [encodeValue] at ha ⊢
    have hin : (encodeBytesBlock (strBytes tb) h).2.next ≤
        (encodeId id (encodeBytesBlock (strBytes tb) h).2).2.next :=
      ihi.1.next_le
    have hstr := decodeStr_spec tb h g (by
      intro q hq1 hq2
      have := ha q hq1 (by omega)
      rw [this]
      exact ihi.1.outside q (Or.inl (by omega)))
    have hagi : AgreeOn (g.free h.next)
        (encodeId id (encodeBytesBlock (strBytes tb) h).2).2
        (encodeBytesBlock (strBytes tb) h).2.next
        (encodeId id (encodeBytesBlock (strBytes tb) h).2).2.next := by
      have hc := hstr.2
      intro q hq1 hq2
      have := hc q
      rw [this, if_neg (by omega)]
      exact ha q (by omega) hq2
    have hid := ihi.2 fuel (g.free h.next) (by
      simpa [fsizeValue] using hf) hagi
    obtain ⟨g2, hdec2, hclr2⟩ := hid
    refine ⟨g2, ?_, ?_⟩
    · simp only [decodeValue, hstr.1, hdec2]
    · exact ClearRange.comp_lh (by simpa [hb1] using hstr.2)
        (by simpa [hb1] using hclr2) (by omega) (by omega)
termination_by v h hwf => sizeOf v
decreasing_by all_goals (simp_wf <;> omega)

theorem encodeId_spec : ∀ (id : SqlId) (h : Heap), wfId id = true →
    EncOk h (encodeId id h).2 ∧
    DecSpec (fsizeId id)
      (fun fuel g => decodeId fuel (encodeId id h).1 g)
      ((encodeId id h).2) h.next ((encodeId id h).2).next id
  | SqlId.number i, h, hwf => by
    exact ⟨EncOk.refl h, fun fuel g _ _ =>
      ⟨g, by simp [encodeId, decodeId], ClearRange.empty g _⟩⟩
  | SqlId.string s, h, hwf => by
    refine ⟨encodeBytesBlock_encOk _ h, fun fuel g _ ha => ?_⟩
    have hs := decodeStr_spec s h g (by
      simpa [encodeId, encodeBytesBlock_next] using ha)
    refine ⟨g.free h.next, ?_, by
      simpa [encodeId, encodeBytesBlock_next] using hs.2⟩
    simp only [encodeId, decodeId]
    rw [hs.1]
  | SqlId.array es, h, hwf => by
    have hwfl : wfValueList es = true := by simpa [wfId] using hwf
    have ihl := encodeValueList_spec es h hwfl
    have henc : EncOk h ((encodeValueList es h).2.alloc
        ((encodeValueList es h).1.map HVal.value)).2 :=
      EncOk.trans ihl.1 (EncOk.alloc _ _)
    refine ⟨by simpa [encodeId] using henc, ?_⟩
    intro fuel g hf ha
    simp only [encodeId] at ha ⊢
    cases fuel with
    | zero => exact absurd hf (by simp [fsizeId])
    | succ f =>
      have hff : fsizeValueList es ≤ f := by
        have := hf
        simp only [fsizeId] at this
        omega
      have h1n : h.next ≤ (encodeValueList es h).2.next := ihl.1.next_le
      have h2n : ((encodeValueList es h).2.alloc
          ((encodeValueList es h).1.map HVal.value)).2.next =
          (encodeValueList es h).2.next + 1 := Heap.alloc_next _ _
      have hread := readArr_spec cellsValues HVal.value
        (encodeValueList es h).1 (cellsValues_map _)
        (encodeValueList es h).2 g
        (AgreeOn.mono ha (by omega) (by omega))
      have hag1 : AgreeOn (g.free (encodeValueList es h).2.next)
          (encodeValueList es h).2 h.next (encodeValueList es h).2.next := by
        intro q hq1 hq2
        have hfree := (hread.2) q
        rw [hfree, if_neg (by omega)]
        have := ha q hq1 (by omega)
        rw [this]
        exact (EncOk.alloc _ _).outside q (Or.inl hq2)
      have hlist := ihl.2 f (g.free (encodeValueList es h).2.next) hff hag1
      obtain ⟨g2, hdec2, hclr2⟩ := hlist
      have hdec2b : decodeValueList f (encodeValueList es h).1
          (g.free (encodeValueList es h).2.next) = Except.ok (es, g2) := hdec2
      refine ⟨g2, ?_, ?_⟩
      · simp only [decodeId, Heap.alloc_fst, hread.1, hdec2b]
      · exact ClearRange.comp_hl (by simpa [h2n] using hread.2) hclr2
          h1n (by omega)
  | SqlId.object en, h, hwf => by
    have hwfp : sortedKeysB en = true ∧ wfEntryList en = true := by
      simpa [wfId] using hwf
    have ihl := encodeEntryList_spec en h hwfp.2
    have henc : EncOk h ((encodeEntryList en h).2.alloc
        ((encodeEntryList en h).1.map (fun e => HVal.kvpairV e.1 e.2))).2 :=
      EncOk.trans ihl.1 (EncOk.alloc _ _)
    refine ⟨by simpa [encodeId] using henc, ?_⟩
    intro fuel g hf ha
    simp only [encodeId] at ha ⊢
    cases fuel with
    | zero => exact absurd hf (by simp [fsizeId])
    | succ f =>
      have hff : fsizeEntryList en ≤ f := by
        have := hf
        simp only [fsizeId] at this
        omega
      have h1n : h.next ≤ (encodeEntryList en h).2.next := ihl.1.next_le
      have h2n : ((encodeEntryList en h).2.alloc
          ((encodeEntryList en h).1.map (fun e => HVal.kvpairV e.1 e.2))).2.next =
          (encodeEntryList en h).2.next + 1 := Heap.alloc_next _ _
      have hread := readArr_spec cellsPairsV (fun e => HVal.kvpairV e.1 e.2)
        (encodeEntryList en h).1 (cellsPairsV_map _)
        (encodeEntryList en h).2 g
        (AgreeOn.mono ha (by omega) (by omega))
      have hag1 : AgreeOn (g.free (encodeEntryList en h).2.next)
          (encodeEntryList en h).2 h.next (encodeEntryList en h).2.next := by
        intro q hq1 hq2
        have hfree := (hread.2) q
        rw [hfree, if_neg (by omega)]
        have := ha q hq1 (by omega)
        rw [this]
        exact (EncOk.alloc _ _).outside q (Or.inl hq2)
      have hlist := ihl.2 f (g.free (encodeEntryList en h).2.next) hff hag1
      obtain ⟨g2, hdec2, hclr2⟩ := hlist
      have hdec2b : decodeEntryList f (encodeEntryList en h).1
          (g.free (encodeEntryList en h).2.next) = Except.ok (en, g2) := hdec2
      have hmap : mapFromList en = en :=
        mapFromList_sorted en ((sortedKeysB_iff en).mp hwfp.1)
      refine ⟨g2, ?_, ?_⟩
      · simp only [decodeId, Heap.alloc_fst, hread.1, hdec2b, hmap]
      · exact ClearRange.comp_hl (by simpa [h2n] using hread.2) hclr2
          h1n (by omega)
termination_by id h hwf => sizeOf id
decreasing_by all_goals (simp_wf <;> omega)

theorem encodeValueList_spec : ∀ (es : List SqlValue) (h : Heap), wfValueList es = true →
    EncOk h (encodeValueList es h).2 ∧
    DecSpec (fsizeValueList es)
      (fun fuel g => decodeValueList fuel (encodeValueList es h).1 g)
      ((encodeValueList es h).2) h.next ((encodeValueList es h).2).next es
  | [], h, hwf => by
    exact ⟨EncOk.refl h, fun fuel g _ _ =>
      ⟨g, by simp [encodeValueList, decodeValueList], ClearRange.empty g _⟩⟩
  | v :: r, h, hwf => by
    have hwf1 : wfValue v = true ∧ wfValueList r = true := by
      simpa [wfValueList] using hwf
    have ih1 := encodeValue_spec v h hwf1.1
    have ih2 := encodeValueList_spec r (encodeValue v h).2 hwf1.2
    have henc : EncOk h (encodeValueList r (encodeValue v h).2).2 :=
      EncOk.trans ih1.1 ih2.1
    refine ⟨by simpa [encodeValueList] using henc, ?_⟩
    intro fuel g hf ha
    simp only [encodeValueList] at ha ⊢
    have hn1 : h.next ≤ (encodeValue v h).2.next := ih1.1.next_le
    have hn2 : (encodeValue v h).2.next ≤
        (encodeValueList r (encodeValue v h).2).2.next := ih2.1.next_le
    have hag1 : AgreeOn g (encodeValue v h).2 h.next (encodeValue v h).2.next := by
      intro q hq1 hq2
      have := ha q hq1 (by omega)
      rw [this]
      exact ih2.1.outside q (Or.inl hq2)
    have hd1 := ih1.2 fuel g (by
      have := hf
      simp only [fsizeValueList] at this
      omega) hag1
    obtain ⟨g1, hdec1, hclr1⟩ := hd1
    have hag2 : AgreeOn g1 (encodeValueList r (encodeValue v h).2).2
        (encodeValue v h).2.next
        (encodeValueList r (encodeValue v h).2).2.next :=
      AgreeOn.after_clear hclr1 (AgreeOn.mono ha (by omega) (Nat.le_refl _))
    have hd2 := ih2.2 fuel g1 (by
      have := hf
      simp only [fsizeValueList] at this
      omega) hag2
    obtain ⟨g2, hdec2, hclr2⟩ := hd2
    refine ⟨g2, ?_, ClearRange.comp_lh hclr1 hclr2 hn1 hn2⟩
    simp only [decodeValueList, hdec1, hdec2]
termination_by es h hwf => sizeOf es
decreasing_by all_goals (simp_wf <;> omega)

theorem encodeEntryList_spec : ∀ (en : List (String × SqlValue)) (h : Heap), wfEntryList en = true →
    EncOk h (encodeEntryList en h).2 ∧
    DecSpec (fsizeEntryList en)
      (fun fuel g => decodeEntryList fuel (encodeEntryList en h).1 g)
      ((encodeEntryList en h).2) h.next ((encodeEntryList en h).2).next en
  | [], h, hwf => by
    exact ⟨EncOk.refl h, fun fuel g _ _ =>
      ⟨g, by simp [encodeEntryList, decodeEntryList], ClearRange.empty g _⟩⟩
  | (k, v) :: r, h, hwf => by
    have hwf1 : wfValue v = true ∧ wfEntryList r = true := by
      simpa [wfEntryList] using hwf
    have ih1 := encodeValue_spec v (encodeBytesBlock (strBytes k) h).2 hwf1.1
    have ih2 := encodeEntryList_spec r
      (encodeValue v (encodeBytesBlock (strBytes k) h).2).2 hwf1.2
    have hb1 : ((encodeBytesBlock (strBytes k) h).2).next = h.next + 1 :=
      encodeBytesBlock_next _ h
    have henc : EncOk h (encodeEntryList r
        (encodeValue v (encodeBytesBlock (strBytes k) h).2).2).2 :=
      EncOk.trans (encodeBytesBlock_encOk _ h) (EncOk.trans ih1.1 ih2.1)
    refine ⟨by simpa [encodeEntryList] using henc, ?_⟩
    intro fuel g hf ha
    simp only [encodeEntryList] at ha ⊢
    have hn1 : (encodeBytesBlock (strBytes k) h).2.next ≤
        (encodeValue v (encodeBytesBlock (strBytes k) h).2).2.next :=
      ih1.1.next_le
    have hn2 : (encodeValue v (encodeBytesBlock (strBytes k) h).2).2.next ≤
        (encodeEntryList r
          (encodeValue v (encodeBytesBlock (strBytes k) h).2).2).2.next :=
      ih2.1.next_le
    have hstr := decodeStr_spec k h g (by
      intro q hq1 hq2
      have := ha q hq1 (by omega)
      rw [this]
      rw [ih2.1.outside q (Or.inl (by omega))]
      exact ih1.1.outside q (Or.inl (by omega)))
    have hag1 : AgreeOn (g.free h.next)
        (encodeValue v (encodeBytesBlock (strBytes k) h).2).2
        (encodeBytesBlock (strBytes k) h).2.next
        (encodeValue v (encodeBytesBlock (strBytes k) h).2).2.next := by
      intro q hq1 hq2
      have hc := hstr.2 q
      rw [hc, if_neg (by omega)]
      have := ha q (by omega) (by omega)
      rw [this]
      exact ih2.1.outside q (Or.inl hq2)
    have hd1 := ih1.2 fuel (g.free h.next) (by
      have := hf
      simp only [fsizeEntryList] at this
      omega) hag1
    obtain ⟨g1, hdec1, hclr1⟩ := hd1
    have hag2 : AgreeOn g1 (encodeEntryList r
        (encodeValue v (encodeBytesBlock (strBytes k) h).2).2).2
        (encodeValue v (encodeBytesBlock (strBytes k) h).2).2.next
        (encodeEntryList r
          (encodeValue v (encodeBytesBlock (strBytes k) h).2).2).2.next :=
      AgreeOn.after_clear hclr1 (by
        intro q hq1 hq2
        rw [Heap.lookup_free, if_neg (by omega)]
        exact ha q (by omega) hq2)
    have hd2 := ih2.2 fuel g1 (by
      have := hf
      simp only [fsizeEntryList] at this
      omega) hag2
    obtain ⟨g2, hdec2, hclr2⟩ := hd2
    refine ⟨g2, ?_, ?_⟩
    · simp only [decodeEntryList, hstr.1, hdec1, hdec2]
    · refine ClearRange.comp_lh (by simpa [hb1] using hstr.2)
        (ClearRange.comp_lh (by simpa [hb1] using hclr1) hclr2 hn1 hn2)
        (by omega) (by omega)
termination_by en h hwf => sizeOf en
decreasing_by all_goals (simp_wf <;> omega)
end

theorem decodeOptNat_enc (o : Option Nat) : decodeOptNat (encodeOptNat o) = o := by
  cases o <;> rfl

/-- Encoding then decoding a list of strings as `Strand`s (the
`Record`/`Geometry` table lists of `kind.rs`). -/
theorem encodeStrandList_spec : ∀ (ss : List String) (h : Heap),
    EncOk h (encodeStrandList ss h).2 ∧
    ∀ g, AgreeOn g (encodeStrandList ss h).2 h.next (encodeStrandList ss h).2.next →
      ∃ g1, decodeStrList (encodeStrandList ss h).1 g = Except.ok (ss, g1) ∧
        ClearRange g g1 h.next (encodeStrandList ss h).2.next
  | [], h => by
    exact ⟨EncOk.refl h, fun g _ =>
      ⟨g, by simp [encodeStrandList, decodeStrList], ClearRange.empty g _⟩⟩
  | s :: r, h => by
    have ih := encodeStrandList_spec r (encodeBytesBlock (strBytes s) h).2
    have hb1 : ((encodeBytesBlock (strBytes s) h).2).next = h.next + 1 :=
      encodeBytesBlock_next _ h
    have henc : EncOk h (encodeStrandList r (encodeBytesBlock (strBytes s) h).2).2 :=
      EncOk.trans (encodeBytesBlock_encOk _ h) ih.1
    refine ⟨by simpa [encodeStrandList] using henc, ?_⟩
    intro g ha
    simp only [encodeStrandList] at ha ⊢
    have hn1 : (encodeBytesBlock (strBytes s) h).2.next ≤
        (encodeStrandList r (encodeBytesBlock (strBytes s) h).2).2.next :=
      ih.1.next_le
    have hstr := decodeStr_spec s h g (by
      intro q hq1 hq2
      have := ha q hq1 (by omega)
      rw [this]
      exact ih.1.outside q (Or.inl (by omega)))
    have hag1 : AgreeOn (g.free h.next)
        (encodeStrandList r (encodeBytesBlock (strBytes s) h).2).2
        (encodeBytesBlock (strBytes s) h).2.next
        (encodeStrandList r (encodeBytesBlock (strBytes s) h).2).2.next := by
      intro q hq1 hq2
      have hc := hstr.2 q
      rw [hc, if_neg (by omega)]
      exact ha q (by omega) hq2
    obtain ⟨g2, hdec2, hclr2⟩ := ih.2 (g.free h.next) hag1
    refine ⟨g2, ?_, ?_⟩
    · simp only [decodeStrList, hstr.1, hdec2]
    · exact ClearRange.comp_lh (by simpa [hb1] using hstr.2)
        (by simpa [hb1] using hclr2) (by omega) (by omega)

mutual
/-- Encoding a well-formed `sql::Kind` writes only fresh blocks, and
decoding the result from any heap agreeing on those blocks returns the
original kind and frees exactly those blocks. -/
theorem encodeKind_spec : ∀ (k : SqlKind) (h : Heap), wfKind k = true →
    EncOk h (encodeKind k h).2 ∧
    DecSpec (fsizeKind k)
      (fun fuel g => decodeKind fuel (encodeKind k h).1 g)
      ((encodeKind k h).2) h.next ((encodeKind k h).2).next k
  | SqlKind.any, h, hwf => by
    exact ⟨EncOk.refl h, fun fuel g _ _ =>
      ⟨g, by simp [encodeKind, decodeKind], ClearRange.empty g _⟩⟩
  | SqlKind.null, h, hwf => by
    exact ⟨EncOk.refl h, fun fuel g _ _ =>
      ⟨g, by simp [encodeKind, decodeKind], ClearRange.empty g _⟩⟩
  | SqlKind.bool, h, hwf => by
    exact ⟨EncOk.refl h, fun fuel g _ _ =>
      ⟨g, by simp [encodeKind, decodeKind], ClearRange.empty g _⟩⟩
  | SqlKind.bytes, h, hwf => by
    exact ⟨EncOk.refl h, fun fuel g _ _ =>
      ⟨g, by simp [encodeKind, decodeKind], ClearRange.empty g _⟩⟩
  | SqlKind.datetime, h, hwf => by
    exact ⟨EncOk.refl h, fun fuel g _ _ =>
      ⟨g, by simp [encodeKind, decodeKind], ClearRange.empty g _⟩⟩
  | SqlKind.decimal, h, hwf => by
    exact ⟨EncOk.refl h, fun fuel g _ _ =>
      ⟨g, by simp [encodeKind, decodeKind], ClearRange.empty g _⟩⟩
  | SqlKind.duration, h, hwf => by
    exact ⟨EncOk.refl h, fun fuel g _ _ =>
      ⟨g, by simp [encodeKind, decodeKind], ClearRange.empty g _⟩⟩
  | SqlKind.float, h, hwf => by
    exact ⟨EncOk.refl h, fun fuel g _ _ =>
      ⟨g, by simp [encodeKind, decodeKind], ClearRange.empty g _⟩⟩
  | SqlKind.int, h, hwf => by
    exact ⟨EncOk.refl h, fun fuel g _ _ =>
      ⟨g, by simp [encodeKind, decodeKind], ClearRange.empty g _⟩⟩
  | SqlKind.number, h, hwf => by
    exact ⟨EncOk.refl h, fun fuel g _ _ =>
      ⟨g, by simp [encodeKind, decodeKind], ClearRange.empty g _⟩⟩
  | SqlKind.object, h, hwf => by
    exact ⟨EncOk.refl h, fun fuel g _ _ =>
      ⟨g, by simp [encodeKind, decodeKind], ClearRange.empty g _⟩⟩
  | SqlKind.point, h, hwf => by
    exact ⟨EncOk.refl h, fun fuel g _ _ =>
      ⟨g, by simp [encodeKind, decodeKind], ClearRange.empty g _⟩⟩
  | SqlKind.string, h, hwf => by
    exact ⟨EncOk.refl h, fun fuel g _ _ =>
      ⟨g, by simp [encodeKind, decodeKind], ClearRange.empty g _⟩⟩
  | SqlKind.uuid, h, hwf => by
    exact ⟨EncOk.refl h, fun fuel g _ _ =>
      ⟨g, by simp [encodeKind, decodeKind], ClearRange.empty g _⟩⟩
  | SqlKind.regex, h, hwf => by
    exact ⟨EncOk.refl h, fun fuel g _ _ =>
      ⟨g, by simp [encodeKind, decodeKind], ClearRange.empty g _⟩⟩
  | SqlKind.range, h, hwf => by
    exact ⟨EncOk.refl h, fun fuel g _ _ =>
      ⟨g, by simp [encodeKind, decodeKind], ClearRange.empty g _⟩⟩
  | SqlKind.record ts, h, hwf => by
    have ihs := encodeStrandList_spec ts h
    have henc : EncOk h ((encodeStrandList ts h).2.alloc
        ((encodeStrandList ts h).1.map HVal.strand)).2 :=
      EncOk.trans ihs.1 (EncOk.alloc _ _)
    refine ⟨by simpa [encodeKind] using henc, ?_⟩
    intro fuel g hf ha
    simp only [encodeKind] at ha ⊢
    have h1n : h.next ≤ (encodeStrandList ts h).2.next := ihs.1.next_le
    have h2n : ((encodeStrandList ts h).2.alloc
        ((encodeStrandList ts h).1.map HVal.strand)).2.next =
        (encodeStrandList ts h).2.next + 1 := Heap.alloc_next _ _
    have hread := readArr_spec cellsStrands HVal.strand
      (encodeStrandList ts h).1 (cellsStrands_map _) (encodeStrandList ts h).2 g
      (AgreeOn.mono ha (by omega) (by omega))
    have hag1 : AgreeOn (g.free (encodeStrandList ts h).2.next)
        (encodeStrandList ts h).2 h.next (encodeStrandList ts h).2.next := by
      intro q hq1 hq2
      have hfree := (hread.2) q
      rw [hfree, if_neg (by omega)]
      have := ha q hq1 (by omega)
      rw [this]
      exact (EncOk.alloc _ _).outside q (Or.inl hq2)
    obtain ⟨g2, hdec2, hclr2⟩ := ihs.2 (g.free (encodeStrandList ts h).2.next) hag1
    refine ⟨g2, ?_, ?_⟩
    · simp only [decodeKind, Heap.alloc_fst, hread.1, hdec2]
    · exact ClearRange.comp_hl (by simpa [h2n] using hread.2) hclr2
        h1n (by omega)
  | SqlKind.geometry ts, h, hwf => by
    have ihs := encodeStrandList_spec ts h
    have henc : EncOk h ((encodeStrandList ts h).2.alloc
        ((encodeStrandList ts h).1.map HVal.strand)).2 :=
      EncOk.trans ihs.1 (EncOk.alloc _ _)
    refine ⟨by simpa [encodeKind] using henc, ?_⟩
    intro fuel g hf ha
    simp only [encodeKind] at ha ⊢
    have h1n : h.next ≤ (encodeStrandList ts h).2.next := ihs.1.next_le
    have h2n : ((encodeStrandList ts h).2.alloc
        ((encodeStrandList ts h).1.map HVal.strand)).2.next =
        (encodeStrandList ts h).2.next + 1 := Heap.alloc_next _ _
    have hread := readArr_spec cellsStrands HVal.strand
      (encodeStrandList ts h).1 (cellsStrands_map _) (encodeStrandList ts h).2 g
      (AgreeOn.mono ha (by omega) (by omega))
    have hag1 : AgreeOn (g.free (encodeStrandList ts h).2.next)
        (encodeStrandList ts h).2 h.next (encodeStrandList ts h).2.next := by
      intro q hq1 hq2
      have hfree := (hread.2) q
      rw [hfree, if_neg (by omega)]
      have := ha q hq1 (by omega)
      rw [this]
      exact (EncOk.alloc _ _).outside q (Or.inl hq2)
    obtain ⟨g2, hdec2, hclr2⟩ := ihs.2 (g.free (encodeStrandList ts h).2.next) hag1
    refine ⟨g2, ?_, ?_⟩
    · simp only [decodeKind, Heap.alloc_fst, hread.1, hdec2]
    · exact ClearRange.comp_hl (by simpa [h2n] using hread.2) hclr2
        h1n (by omega)
  | SqlKind.option k, h, hwf => by
    have hwfk : wfKind k = true := by simpa [wfKind] using hwf
    have ihk := encodeKind_spec k h hwfk
    have henc : EncOk h ((encodeKind k h).2.alloc [HVal.kind (encodeKind k h).1]).2 :=
      EncOk.trans ihk.1 (EncOk.alloc _ _)
    refine ⟨by simpa [encodeKind] using henc, ?_⟩
    intro fuel g hf ha
    simp only [encodeKind] at ha ⊢
    cases fuel with
    | zero => exact absurd hf (by simp [fsizeKind])
    | succ f =>
      have hff : fsizeKind k ≤ f := by
        have := hf
        simp only [fsizeKind] at this
        omega
      have h1n : h.next ≤ (encodeKind k h).2.next := ihk.1.next_le
      have h2n : ((encodeKind k h).2.alloc [HVal.kind (encodeKind k h).1]).2.next =
          (encodeKind k h).2.next + 1 := Heap.alloc_next _ _
      have hread := readCell_spec (HVal.kind (encodeKind k h).1)
        (encodeKind k h).2 g (AgreeOn.mono ha (by omega) (by omega))
      have hag1 : AgreeOn (g.free (encodeKind k h).2.next)
          (encodeKind k h).2 h.next (encodeKind k h).2.next := by
        intro q hq1 hq2
        have hfree := (hread.2) q
        rw [hfree, if_neg (by omega)]
        have := ha q hq1 (by omega)
        rw [this]
        exact (EncOk.alloc _ _).outside q (Or.inl hq2)
      obtain ⟨g2, hdec2, hclr2⟩ := ihk.2 f (g.free (encodeKind k h).2.next) hff hag1
      have hdec2b : decodeKind f (encodeKind k h).1
          (g.free (encodeKind k h).2.next) = Except.ok (k, g2) := hdec2
      refine ⟨g2, ?_, ?_⟩
      · simp only [decodeKind, Heap.alloc_fst, hread.1, hdec2b]
      · exact ClearRange.comp_hl (by simpa [h2n] using hread.2) hclr2
          h1n (by omega)
  | SqlKind.either ks, h, hwf => by
    have hwfl : wfKindList ks = true := by simpa [wfKind] using hwf
    have ihl := encodeKindList_spec ks h hwfl
    have henc : EncOk h ((encodeKindList ks h).2.alloc
        ((encodeKindList ks h).1.map HVal.kind)).2 :=
      EncOk.trans ihl.1 (EncOk.alloc _ _)
    refine ⟨by simpa [encodeKind] using henc, ?_⟩
    intro fuel g hf ha
    simp only [encodeKind] at ha ⊢
    cases fuel with
    | zero => exact absurd hf (by simp [fsizeKind])
    | succ f =>
      have hff : fsizeKindList ks ≤ f := by
        have := hf
        simp only [fsizeKind] at this
        omega
      have h1n : h.next ≤ (encodeKindList ks h).2.next := ihl.1.next_le
      have h2n : ((encodeKindList ks h).2.alloc
          ((encodeKindList ks h).1.map HVal.kind)).2.next =
          (encodeKindList ks h).2.next + 1 := Heap.alloc_next _ _
      have hread := readArr_spec cellsKinds HVal.kind
        (encodeKindList ks h).1 (cellsKinds_map _) (encodeKindList ks h).2 g
        (AgreeOn.mono ha (by omega) (by omega))
      have hag1 : AgreeOn (g.free (encodeKindList ks h).2.next)
          (encodeKindList ks h).2 h.next (encodeKindList ks h).2.next := by
        intro q hq1 hq2
        have hfree := (hread.2) q
        rw [hfree, if_neg (by omega)]
        have := ha q hq1 (by omega)
        rw [this]
        exact (EncOk.alloc _ _).outside q (Or.inl hq2)
      obtain ⟨g2, hdec2, hclr2⟩ := ihl.2 f (g.free (encodeKindList ks h).2.next) hff hag1
      have hdec2b : decodeKindList f (encodeKindList ks h).1
          (g.free (encodeKindList ks h).2.next) = Except.ok (ks, g2) := hdec2
      refine ⟨g2, ?_, ?_⟩
      · simp only [decodeKind, Heap.alloc_fst, hread.1, hdec2b]
      · exact ClearRange.comp_hl (by simpa [h2n] using hread.2) hclr2
          h1n (by omega)
  | SqlKind.set k len, h, hwf => by
    have hwfk : wfKind k = true := by simpa [wfKind] using hwf
    have ihk := encodeKind_spec k h hwfk
    have henc : EncOk h ((encodeKind k h).2.alloc [HVal.kind (encodeKind k h).1]).2 :=
      EncOk.trans ihk.1 (EncOk.alloc _ _)
    refine ⟨by simpa [encodeKind] using henc, ?_⟩
    intro fuel g hf ha
    simp only [encodeKind] at ha ⊢
    cases fuel with
    | zero => exact absurd hf (by simp [fsizeKind])
    | succ f =>
      have hff : fsizeKind k ≤ f := by
        have := hf
        simp only [fsizeKind] at this
        omega
      have h1n : h.next ≤ (encodeKind k h).2.next := ihk.1.next_le
      have h2n : ((encodeKind k h).2.alloc [HVal.kind (encodeKind k h).1]).2.next =
          (encodeKind k h).2.next + 1 := Heap.alloc_next _ _
      have hread := readCell_spec (HVal.kind (encodeKind k h).1)
        (encodeKind k h).2 g (AgreeOn.mono ha (by omega) (by omega))
      have hag1 : AgreeOn (g.free (encodeKind k h).2.next)
          (encodeKind k h).2 h.next (encodeKind k h).2.next := by
        intro q hq1 hq2
        have hfree := (hread.2) q
        rw [hfree, if_neg (by omega)]
        have := ha q hq1 (by omega)
        rw [this]
        exact (EncOk.alloc _ _).outside q (Or.inl hq2)
      obtain ⟨g2, hdec2, hclr2⟩ := ihk.2 f (g.free (encodeKind k h).2.next) hff hag1
      have hdec2b : decodeKind f (encodeKind k h).1
          (g.free (encodeKind k h).2.next) = Except.ok (k, g2) := hdec2
      refine ⟨g2, ?_, ?_⟩
      · simp only [decodeKind, Heap.alloc_fst, hread.1, hdec2b, decodeOptNat_enc]
      · exact ClearRange.comp_hl (by simpa [h2n] using hread.2) hclr2
          h1n (by omega)
  | SqlKind.array k len, h, hwf => by
    have hwfk : wfKind k = true := by simpa [wfKind] using hwf
    have ihk := encodeKind_spec k h hwfk
    have henc : EncOk h ((encodeKind k h).2.alloc [HVal.kind (encodeKind k h).1]).2 :=
      EncOk.trans ihk.1 (EncOk.alloc _ _)
    refine ⟨by simpa [encodeKind] using henc, ?_⟩
    intro fuel g hf ha
    simp only [encodeKind] at ha ⊢
    cases fuel with
    | zero => exact absurd hf (by simp [fsizeKind])
    | succ f =>
      have hff : fsizeKind k ≤ f := by
        have := hf
        simp only [fsizeKind] at this
        omega
      have h1n : h.next ≤ (encodeKind k h).2.next := ihk.1.next_le
      have h2n : ((encodeKind k h).2.alloc [HVal.kind (encodeKind k h).1]).2.next =
          (encodeKind k h).2.next + 1 := Heap.alloc_next _ _
      have hread := readCell_spec (HVal.kind (encodeKind k h).1)
        (encodeKind k h).2 g (AgreeOn.mono ha (by omega) (by omega))
      have hag1 : AgreeOn (g.free (encodeKind k h).2.next)
          (encodeKind k h).2 h.next (encodeKind k h).2.next := by
        intro q hq1 hq2
        have hfree := (hread.2) q
        rw [hfree, if_neg (by omega)]
        have := ha q hq1 (by omega)
        rw [this]
        exact (EncOk.alloc _ _).outside q (Or.inl hq2)
      obtain ⟨g2, hdec2, hclr2⟩ := ihk.2 f (g.free (encodeKind k h).2.next) hff hag1
      have hdec2b : decodeKind f (encodeKind k h).1
          (g.free (encodeKind k h).2.next) = Except.ok (k, g2) := hdec2
      refine ⟨g2, ?_, ?_⟩
      · simp only [decodeKind, Heap.alloc_fst, hread.1, hdec2b, decodeOptNat_enc]
      · exact ClearRange.comp_hl (by simpa [h2n] using hread.2) hclr2
          h1n (by omega)
  | SqlKind.function Option.none Option.none, h, hwf => by
    refine ⟨by simpa [encodeKind] using EncOk.refl h, ?_⟩
    intro fuel g hf ha
    cases fuel with
    | zero => exact absurd hf (by simp [fsizeKind])
    | succ f =>
      exact ⟨g, by simp [encodeKind, decodeKind], by
        simpa [encodeKind] using ClearRange.empty g h.next⟩
  | SqlKind.function (Option.some ks) Option.none, h, hwf => by
    have hwfl : wfKindList ks = true := by
      have := hwf
      simp only [wfKind, Bool.and_eq_true] at this
      exact this.1
    have ihl := encodeKindList_spec ks h hwfl
    have henc : EncOk h ((encodeKindList ks h).2.alloc
        ((encodeKindList ks h).1.map HVal.kind)).2 :=
      EncOk.trans ihl.1 (EncOk.alloc _ _)
    refine ⟨by simpa [encodeKind] using henc, ?_⟩
    intro fuel g hf ha
    simp only [encodeKind] at ha ⊢
    cases fuel with
    | zero => exact absurd hf (by simp [fsizeKind])
    | succ f =>
      have hff : fsizeKindList ks ≤ f := by
        have := hf
        simp only [fsizeKind] at this
        omega
      have h1n : h.next ≤ (encodeKindList ks h).2.next := ihl.1.next_le
      have h2n : ((encodeKindList ks h).2.alloc
          ((encodeKindList ks h).1.map HVal.kind)).2.next =
          (encodeKindList ks h).2.next + 1 := Heap.alloc_next _ _
      have hread := readArr_spec cellsKinds HVal.kind
        (encodeKindList ks h).1 (cellsKinds_map _) (encodeKindList ks h).2 g
        (AgreeOn.mono ha (by omega) (by omega))
      have hag1 : AgreeOn (g.free (encodeKindList ks h).2.next)
          (encodeKindList ks h).2 h.next (encodeKindList ks h).2.next := by
        intro q hq1 hq2
        have hfree := (hread.2) q
        rw [hfree, if_neg (by omega)]
        have := ha q hq1 (by omega)
        rw [this]
        exact (EncOk.alloc _ _).outside q (Or.inl hq2)
      obtain ⟨g2, hdec2, hclr2⟩ := ihl.2 f (g.free (encodeKindList ks h).2.next) hff hag1
      have hdec2b : decodeKindList f (encodeKindList ks h).1
          (g.free (encodeKindList ks h).2.next) = Except.ok (ks, g2) := hdec2
      refine ⟨g2, ?_, ?_⟩
      · simp only [decodeKind, Heap.alloc_fst, hread.1, hdec2b]
      · exact ClearRange.comp_hl (by simpa [h2n] using hread.2) hclr2
          h1n (by omega)
  | SqlKind.function Option.none (Option.some k), h, hwf => by
    have hwfk : wfKind k = true := by
      have := hwf
      simp only [wfKind, Bool.and_eq_true] at this
      exact this.2
    have ihk := encodeKind_spec k h hwfk
    have henc : EncOk h ((encodeKind k h).2.alloc [HVal.kind (encodeKind k h).1]).2 :=
      EncOk.trans ihk.1 (EncOk.alloc _ _)
    refine ⟨by simpa [encodeKind] using henc, ?_⟩
    intro fuel g hf ha
    simp only [encodeKind] at ha ⊢
    cases fuel with
    | zero => exact absurd hf (by simp [fsizeKind])
    | succ f =>
      have hff : fsizeKind k ≤ f := by
        have := hf
        simp only [fsizeKind] at this
        omega
      have h1n : h.next ≤ (encodeKind k h).2.next := ihk.1.next_le
      have h2n : ((encodeKind k h).2.alloc [HVal.kind (encodeKind k h).1]).2.next =
          (encodeKind k h).2.next + 1 := Heap.alloc_next _ _
      have hread := readCell_spec (HVal.kind (encodeKind k h).1)
        (encodeKind k h).2 g (AgreeOn.mono ha (by omega) (by omega))
      have hag1 : AgreeOn (g.free (encodeKind k h).2.next)
          (encodeKind k h).2 h.next (encodeKind k h).2.next := by
        intro q hq1 hq2
        have hfree := (hread.2) q
        rw [hfree, if_neg (by omega)]
        have := ha q hq1 (by omega)
        rw [this]
        exact (EncOk.alloc _ _).outside q (Or.inl hq2)
      obtain ⟨g2, hdec2, hclr2⟩ := ihk.2 f (g.free (encodeKind k h).2.next) hff hag1
      have hdec2b : decodeKind f (encodeKind k h).1
          (g.free (encodeKind k h).2.next) = Except.ok (k, g2) := hdec2
      refine ⟨g2, ?_, ?_⟩
      · simp only [decodeKind, Heap.alloc_fst, hread.1, hdec2b]
      · exact ClearRange.comp_hl (by simpa [h2n] using hread.2) hclr2
          h1n (by omega)
  | SqlKind.function (Option.some ks) (Option.some k), h, hwf => by
    have hwfp : wfKindList ks = true ∧ wfKind k = true := by
      have := hwf
      simp only [wfKind, Bool.and_eq_true] at this
      exact this
    have ihl := encodeKindList_spec ks h hwfp.1
    have ihk := encodeKind_spec k ((encodeKindList ks h).2.alloc
      ((encodeKindList ks h).1.map HVal.kind)).2 hwfp.2
    have hla : h.next ≤ (encodeKindList ks h).2.next := ihl.1.next_le
    have hlb : (((encodeKindList ks h).2.alloc
        ((encodeKindList ks h).1.map HVal.kind)).2).next =
        (encodeKindList ks h).2.next + 1 := Heap.alloc_next _ _
    have hkc : ((encodeKindList ks h).2.alloc
        ((encodeKindList ks h).1.map HVal.kind)).2.next ≤
        (encodeKind k ((encodeKindList ks h).2.alloc
          ((encodeKindList ks h).1.map HVal.kind)).2).2.next := ihk.1.next_le
    have henc : EncOk h ((encodeKind k ((encodeKindList ks h).2.alloc
        ((encodeKindList ks h).1.map HVal.kind)).2).2.alloc
        [HVal.kind (encodeKind k ((encodeKindList ks h).2.alloc
          ((encodeKindList ks h).1.map HVal.kind)).2).1]).2 :=
      EncOk.trans ihl.1 (EncOk.trans (EncOk.alloc _ _)
        (EncOk.trans ihk.1 (EncOk.alloc _ _)))
    refine ⟨by simpa [encodeKind] using henc, ?_⟩
    intro fuel g hf ha
    simp only [encodeKind] at ha ⊢
    cases fuel with
    | zero => exact absurd hf (by simp [fsizeKind])
    | succ f =>
      have hff : fsizeKindList ks ≤ f ∧ fsizeKind k ≤ f := by
        have := hf
        simp only [fsizeKind] at this
        omega
      have hkd : (encodeKind k ((encodeKindList ks h).2.alloc
          ((encodeKindList ks h).1.map HVal.kind)).2).2.next + 1 =
          ((encodeKind k ((encodeKindList ks h).2.alloc
            ((encodeKindList ks h).1.map HVal.kind)).2).2.alloc
            [HVal.kind (encodeKind k ((encodeKindList ks h).2.alloc
              ((encodeKindList ks h).1.map HVal.kind)).2).1]).2.next :=
        (Heap.alloc_next _ _).symm
      have hreadA := readArr_spec cellsKinds HVal.kind
        (encodeKindList ks h).1 (cellsKinds_map _) (encodeKindList ks h).2 g (by
          intro q hq1 hq2
          have := ha q (by omega) (by omega)
          rw [this]
          rw [(EncOk.alloc _ _).outside q (Or.inl (by omega))]
          exact ihk.1.outside q (Or.inl (by omega)))
      have hagA : AgreeOn (g.free (encodeKindList ks h).2.next)
          (encodeKindList ks h).2 h.next (encodeKindList ks h).2.next := by
        intro q hq1 hq2
        have hfree := (hreadA.2) q
        rw [hfree, if_neg (by omega)]
        have := ha q hq1 (by omega)
        rw [this]
        rw [(EncOk.alloc _ _).outside q (Or.inl (by omega))]
        rw [ihk.1.outside q (Or.inl (by omega))]
        exact (EncOk.alloc _ _).outside q (Or.inl (by omega))
      obtain ⟨g2, hdec2, hclr2⟩ := ihl.2 f (g.free (encodeKindList ks h).2.next)
        hff.1 hagA
      have hdec2b : decodeKindList f (encodeKindList ks h).1
          (g.free (encodeKindList ks h).2.next) = Except.ok (ks, g2) := hdec2
      have hclrA : ClearRange g g2 h.next ((encodeKindList ks h).2.next + 1) :=
        ClearRange.comp_hl (ClearRange.free g _) hclr2 hla (by omega)
      have hreadB := readCell_spec (HVal.kind (encodeKind k
          ((encodeKindList ks h).2.alloc
            ((encodeKindList ks h).1.map HVal.kind)).2).1)
        (encodeKind k ((encodeKindList ks h).2.alloc
          ((encodeKindList ks h).1.map HVal.kind)).2).2 g2 (by
          intro q hq1 hq2
          have hc := hclrA q
          rw [hc, if_neg (by omega)]
          exact ha q (by omega) (by omega))
      have hagB : AgreeOn (g2.free (encodeKind k ((encodeKindList ks h).2.alloc
          ((encodeKindList ks h).1.map HVal.kind)).2).2.next)
          (encodeKind k ((encodeKindList ks h).2.alloc
            ((encodeKindList ks h).1.map HVal.kind)).2).2
          ((encodeKindList ks h).2.next + 1)
          (encodeKind k ((encodeKindList ks h).2.alloc
            ((encodeKindList ks h).1.map HVal.kind)).2).2.next := by
        intro q hq1 hq2
        have hfree := (hreadB.2) q
        rw [hfree, if_neg (by omega)]
        have hc := hclrA q
        rw [hc, if_neg (by omega)]
        have := ha q (by omega) (by omega)
        rw [this]
        exact (EncOk.alloc _ _).outside q (Or.inl (by omega))
      obtain ⟨g3, hdec3, hclr3⟩ := ihk.2 f
        (g2.free (encodeKind k ((encodeKindList ks h).2.alloc
          ((encodeKindList ks h).1.map HVal.kind)).2).2.next) hff.2 (by
          simpa [hlb] using hagB)
      have hdec3b : decodeKind f (encodeKind k ((encodeKindList ks h).2.alloc
          ((encodeKindList ks h).1.map HVal.kind)).2).1
          (g2.free (encodeKind k ((encodeKindList ks h).2.alloc
            ((encodeKindList ks h).1.map HVal.kind)).2).2.next) =
          Except.ok (k, g3) := hdec3
      refine ⟨g3, ?_, ?_⟩
      · simp only [decodeKind, Heap.alloc_fst, hreadA.1, hdec2b, hreadB.1, hdec3b]
      · refine ClearRange.comp_lh hclrA ?_ (by omega) (by omega)
        refine ClearRange.comp_hl (by simpa [← hkd] using hreadB.2)
          (by simpa [hlb] using hclr3) (by omega) (by omega)
  | SqlKind.literal l, h, hwf => by
    have ihl := encodeLiteral_spec l h (by simpa [wfKind] using hwf)
    refine ⟨by simpa [encodeKind] using ihl.1, ?_⟩
    intro fuel g hf ha
    simp only [encodeKind] at ha ⊢
    obtain ⟨g1, hdec, hclr⟩ := ihl.2 fuel g (by simpa [fsizeKind] using hf) ha
    have hdecb : decodeLiteral fuel (encodeLiteral l h).1 g =
        Except.ok (l, g1) := hdec
    exact ⟨g1, by simp only [decodeKind, hdecb], hclr⟩
termination_by k h hwf => sizeOf k
decreasing_by all_goals (simp_wf <;> omega)

/-- Encoding then decoding a well-formed `sql::Literal`. -/
theorem encodeLiteral_spec : ∀ (l : SqlLiteral) (h : Heap), wfLiteral l = true →
    EncOk h (encodeLiteral l h).2 ∧
    DecSpec (fsizeLiteral l)
      (fun fuel g => decodeLiteral fuel (encodeLiteral l h).1 g)
      ((encodeLiteral l h).2) h.next ((encodeLiteral l h).2).next l
  | SqlLiteral.string s, h, hwf => by
    refine ⟨encodeBytesBlock_encOk _ h, fun fuel g _ ha => ?_⟩
    have hs := decodeStr_spec s h g (by
      simpa [encodeLiteral, encodeBytesBlock_next] using ha)
    refine ⟨g.free h.next, ?_, by
      simpa [encodeLiteral, encodeBytesBlock_next] using hs.2⟩
    simp only [encodeLiteral, decodeLiteral]
    rw [hs.1]
  | SqlLiteral.number n, h, hwf => by
    refine ⟨EncOk.refl h, fun fuel g _ _ => ⟨g, ?_, ClearRange.empty g _⟩⟩
    cases n <;> simp [encodeLiteral, decodeLiteral, encodeNumber, decodeNumber]
  | SqlLiteral.duration sd nd, h, hwf => by
    exact ⟨EncOk.refl h, fun fuel g _ _ =>
      ⟨g, by simp [encodeLiteral, decodeLiteral], ClearRange.empty g _⟩⟩
  | SqlLiteral.bool b, h, hwf => by
    exact ⟨EncOk.refl h, fun fuel g _ _ =>
      ⟨g, by simp [encodeLiteral, decodeLiteral], ClearRange.empty g _⟩⟩
  | SqlLiteral.array ks, h, hwf => by
    have hwfl : wfKindList ks = true := by simpa [wfLiteral] using hwf
    have ihl := encodeKindList_spec ks h hwfl
    have henc : EncOk h ((encodeKindList ks h).2.alloc
        ((encodeKindList ks h).1.map HVal.kind)).2 :=
      EncOk.trans ihl.1 (EncOk.alloc _ _)
    refine ⟨by simpa [encodeLiteral] using henc, ?_⟩
    intro fuel g hf ha
    simp only [encodeLiteral] at ha ⊢
    cases fuel with
    | zero => exact absurd hf (by simp [fsizeLiteral])
    | succ f =>
      have hff : fsizeKindList ks ≤ f := by
        have := hf
        simp only [fsizeLiteral] at this
        omega
      have h1n : h.next ≤ (encodeKindList ks h).2.next := ihl.1.next_le
      have h2n : ((encodeKindList ks h).2.alloc
          ((encodeKindList ks h).1.map HVal.kind)).2.next =
          (encodeKindList ks h).2.next + 1 := Heap.alloc_next _ _
      have hread := readArr_spec cellsKinds HVal.kind
        (encodeKindList ks h).1 (cellsKinds_map _) (encodeKindList ks h).2 g
        (AgreeOn.mono ha (by omega) (by omega))
      have hag1 : AgreeOn (g.free (encodeKindList ks h).2.next)
          (encodeKindList ks h).2 h.next (encodeKindList ks h).2.next := by
        intro q hq1 hq2
        have hfree := (hread.2) q
        rw [hfree, if_neg (by omega)]
        have := ha q hq1 (by omega)
        rw [this]
        exact (EncOk.alloc _ _).outside q (Or.inl hq2)
      obtain ⟨g2, hdec2, hclr2⟩ := ihl.2 f (g.free (encodeKindList ks h).2.next) hff hag1
      have hdec2b : decodeKindList f (encodeKindList ks h).1
          (g.free (encodeKindList ks h).2.next) = Except.ok (ks, g2) := hdec2
      refine ⟨g2, ?_, ?_⟩
      · simp only [decodeLiteral, Heap.alloc_fst, hread.1, hdec2b]
      · exact ClearRange.comp_hl (by simpa [h2n] using hread.2) hclr2
          h1n (by omega)
  | SqlLiteral.object en, h, hwf => by
    have hwfp : sortedKeysB en = true ∧ wfKindEntryList en = true := by
      simpa [wfLiteral, Bool.and_eq_true] using hwf
    have ihl := encodeKindEntryList_spec en h hwfp.2
    have henc : EncOk h ((encodeKindEntryList en h).2.alloc
        ((encodeKindEntryList en h).1.map (fun e => HVal.kvpairK e.1 e.2))).2 :=
      EncOk.trans ihl.1 (EncOk.alloc _ _)
    refine ⟨by simpa [encodeLiteral] using henc, ?_⟩
    intro fuel g hf ha
    simp only [encodeLiteral] at ha ⊢
    cases fuel with
    | zero => exact absurd hf (by simp [fsizeLiteral])
    | succ f =>
      have hff : fsizeKindEntryList en ≤ f := by
        have := hf
        simp only [fsizeLiteral] at this
        omega
      have h1n : h.next ≤ (encodeKindEntryList en h).2.next := ihl.1.next_le
      have h2n : ((encodeKindEntryList en h).2.alloc
          ((encodeKindEntryList en h).1.map (fun e => HVal.kvpairK e.1 e.2))).2.next =
          (encodeKindEntryList en h).2.next + 1 := Heap.alloc_next _ _
      have hread := readArr_spec cellsPairsK (fun e => HVal.kvpairK e.1 e.2)
        (encodeKindEntryList en h).1 (cellsPairsK_map _)
        (encodeKindEntryList en h).2 g
        (AgreeOn.mono ha (by omega) (by omega))
      have hag1 : AgreeOn (g.free (encodeKindEntryList en h).2.next)
          (encodeKindEntryList en h).2 h.next (encodeKindEntryList en h).2.next := by
        intro q hq1 hq2
        have hfree := (hread.2) q
        rw [hfree, if_neg (by omega)]
        have := ha q hq1 (by omega)
        rw [this]
        exact (EncOk.alloc _ _).outside q (Or.inl hq2)
      obtain ⟨g2, hdec2, hclr2⟩ := ihl.2 f (g.free (encodeKindEntryList en h).2.next) hff hag1
      have hdec2b : decodeKindEntryList f (encodeKindEntryList en h).1
          (g.free (encodeKindEntryList en h).2.next) = Except.ok (en, g2) := hdec2
      have hmap : mapFromList en = en :=
        mapFromList_sorted en ((sortedKeysB_iff en).mp hwfp.1)
      refine ⟨g2, ?_, ?_⟩
      · simp only [decodeLiteral, Heap.alloc_fst, hread.1, hdec2b, hmap]
      · exact ClearRange.comp_hl (by simpa [h2n] using hread.2) hclr2
          h1n (by omega)
  | SqlLiteral.discObject key vs, h, hwf => by
    have hwfv : wfVariantList vs = true := by simpa [wfLiteral] using hwf
    have ihv := encodeVariants_spec vs (encodeBytesBlock (strBytes key) h).2 hwfv
    have hb1 : ((encodeBytesBlock (strBytes key) h).2).next = h.next + 1 :=
      encodeBytesBlock_next _ h
    have hvn : (encodeBytesBlock (strBytes key) h).2.next ≤
        (encodeVariants vs (encodeBytesBlock (strBytes key) h).2).2.next :=
      ihv.1.next_le
    have henc : EncOk h ((encodeVariants vs (encodeBytesBlock (strBytes key) h).2).2.alloc
        ((encodeVariants vs (encodeBytesBlock (strBytes key) h).2).1.map HVal.tarr)).2 :=
      EncOk.trans (encodeBytesBlock_encOk _ h)
        (EncOk.trans ihv.1 (EncOk.alloc _ _))
    refine ⟨by simpa [encodeLiteral] using henc, ?_⟩
    intro fuel g hf ha
    simp only [encodeLiteral] at ha ⊢
    cases fuel with
    | zero => exact absurd hf (by simp [fsizeLiteral])
    | succ f =>
      have hff : fsizeVariants vs ≤ f := by
        have := hf
        simp only [fsizeLiteral] at this
        omega
      have h2n : ((encodeVariants vs (encodeBytesBlock (strBytes key) h).2).2.alloc
          ((encodeVariants vs (encodeBytesBlock (strBytes key) h).2).1.map HVal.tarr)).2.next =
          (encodeVariants vs (encodeBytesBlock (strBytes key) h).2).2.next + 1 :=
        Heap.alloc_next _ _
      have hstr := decodeStr_spec key h g (by
        intro q hq1 hq2
        have := ha q hq1 (by omega)
        rw [this]
        rw [(EncOk.alloc _ _).outside q (Or.inl (by omega))]
        exact ihv.1.outside q (Or.inl (by omega)))
      have hreadT := readArr_spec cellsTarrs HVal.tarr
        (encodeVariants vs (encodeBytesBlock (strBytes key) h).2).1
        (cellsTarrs_map _)
        (encodeVariants vs (encodeBytesBlock (strBytes key) h).2).2
        (g.free h.next) (by
          intro q hq1 hq2
          have hc := hstr.2 q
          rw [hc, if_neg (by omega)]
          exact ha q (by omega) (by omega))
      have hagV : AgreeOn ((g.free h.next).free
          (encodeVariants vs (encodeBytesBlock (strBytes key) h).2).2.next)
          (encodeVariants vs (encodeBytesBlock (strBytes key) h).2).2
          (encodeBytesBlock (strBytes key) h).2.next
          (encodeVariants vs (encodeBytesBlock (strBytes key) h).2).2.next := by
        intro q hq1 hq2
        have hfree := (hreadT.2) q
        rw [hfree, if_neg (by omega)]
        have hc := hstr.2 q
        rw [hc, if_neg (by omega)]
        have := ha q (by omega) (by omega)
        rw [this]
        exact (EncOk.alloc _ _).outside q (Or.inl hq2)
      obtain ⟨g3, hdec3, hclr3⟩ := ihv.2 f ((g.free h.next).free
        (encodeVariants vs (encodeBytesBlock (strBytes key) h).2).2.next) hff hagV
      have hdec3b : decodeVariants f
          (encodeVariants vs (encodeBytesBlock (strBytes key) h).2).1
          ((g.free h.next).free
            (encodeVariants vs (encodeBytesBlock (strBytes key) h).2).2.next) =
          Except.ok (vs, g3) := hdec3
      refine ⟨g3, ?_, ?_⟩
      · simp only [decodeLiteral, Heap.alloc_fst, hstr.1, hreadT.1, hdec3b]
      · refine ClearRange.comp_lh (by simpa [hb1] using hstr.2) ?_
          (by omega) (by omega)
        refine ClearRange.comp_hl (by simpa [h2n] using hreadT.2)
          (by simpa [hb1] using hclr3) (by omega) (by omega)
termination_by l h hwf => sizeOf l
decreasing_by all_goals (simp_wf <;> omega)

theorem encodeKindList_spec : ∀ (ks : List SqlKind) (h : Heap),
    wfKindList ks = true →
    EncOk h (encodeKindList ks h).2 ∧
    DecSpec (fsizeKindList ks)
      (fun fuel g => decodeKindList fuel (encodeKindList ks h).1 g)
      ((encodeKindList ks h).2) h.next ((encodeKindList ks h).2).next ks
  | [], h, hwf => by
    exact ⟨EncOk.refl h, fun fuel g _ _ =>
      ⟨g, by simp [encodeKindList, decodeKindList], ClearRange.empty g _⟩⟩
  | k :: r, h, hwf => by
    have hwf1 : wfKind k = true ∧ wfKindList r = true := by
      simpa [wfKindList] using hwf
    have ih1 := encodeKind_spec k h hwf1.1
    have ih2 := encodeKindList_spec r (encodeKind k h).2 hwf1.2
    have henc : EncOk h (encodeKindList r (encodeKind k h).2).2 :=
      EncOk.trans ih1.1 ih2.1
    refine ⟨by simpa [encodeKindList] using henc, ?_⟩
    intro fuel g hf ha
    simp only [encodeKindList] at ha ⊢
    have hn1 : h.next ≤ (encodeKind k h).2.next := ih1.1.next_le
    have hn2 : (encodeKind k h).2.next ≤
        (encodeKindList r (encodeKind k h).2).2.next := ih2.1.next_le
    have hag1 : AgreeOn g (encodeKind k h).2 h.next (encodeKind k h).2.next := by
      intro q hq1 hq2
      have := ha q hq1 (by omega)
      rw [this]
      exact ih2.1.outside q (Or.inl hq2)
    obtain ⟨g1, hdec1, hclr1⟩ := ih1.2 fuel g (by
      have := hf
      simp only [fsizeKindList] at this
      omega) hag1
    have hag2 : AgreeOn g1 (encodeKindList r (encodeKind k h).2).2
        (encodeKind k h).2.next
        (encodeKindList r (encodeKind k h).2).2.next :=
      AgreeOn.after_clear hclr1 (AgreeOn.mono ha (by omega) (Nat.le_refl _))
    obtain ⟨g2, hdec2, hclr2⟩ := ih2.2 fuel g1 (by
      have := hf
      simp only [fsizeKindList] at this
      omega) hag2
    refine ⟨g2, ?_, ClearRange.comp_lh hclr1 hclr2 hn1 hn2⟩
    simp only [decodeKindList, hdec1, hdec2]
termination_by ks h hwf => sizeOf ks
decreasing_by all_goals (simp_wf <;> omega)

theorem encodeKindEntryList_spec : ∀ (en : List (String × SqlKind)) (h : Heap),
    wfKindEntryList en = true →
    EncOk h (encodeKindEntryList en h).2 ∧
    DecSpec (fsizeKindEntryList en)
      (fun fuel g => decodeKindEntryList fuel (encodeKindEntryList en h).1 g)
      ((encodeKindEntryList en h).2) h.next ((encodeKindEntryList en h).2).next en
  | [], h, hwf => by
    exact ⟨EncOk.refl h, fun fuel g _ _ =>
      ⟨g, by simp [encodeKindEntryList, decodeKindEntryList], ClearRange.empty g _⟩⟩
  | (k, v) :: r, h, hwf => by
    have hwf1 : wfKind v = true ∧ wfKindEntryList r = true := by
      simpa [wfKindEntryList] using hwf
    have ih1 := encodeKind_spec v (encodeBytesBlock (strBytes k) h).2 hwf1.1
    have ih2 := encodeKindEntryList_spec r
      (encodeKind v (encodeBytesBlock (strBytes k) h).2).2 hwf1.2
    have hb1 : ((encodeBytesBlock (strBytes k) h).2).next = h.next + 1 :=
      encodeBytesBlock_next _ h
    have henc : EncOk h (encodeKindEntryList r
        (encodeKind v (encodeBytesBlock (strBytes k) h).2).2).2 :=
      EncOk.trans (encodeBytesBlock_encOk _ h) (EncOk.trans ih1.1 ih2.1)
    refine ⟨by simpa [encodeKindEntryList] using henc, ?_⟩
    intro fuel g hf ha
    simp only [encodeKindEntryList] at ha ⊢
    have hn1 : (encodeBytesBlock (strBytes k) h).2.next ≤
        (encodeKind v (encodeBytesBlock (strBytes k) h).2).2.next :=
      ih1.1.next_le
    have hn2 : (encodeKind v (encodeBytesBlock (strBytes k) h).2).2.next ≤
        (encodeKindEntryList r
          (encodeKind v (encodeBytesBlock (strBytes k) h).2).2).2.next :=
      ih2.1.next_le
    have hstr := decodeStr_spec k h g (by
      intro q hq1 hq2
      have := ha q hq1 (by omega)
      rw [this]
      rw [ih2.1.outside q (Or.inl (by omega))]
      exact ih1.1.outside q (Or.inl (by omega)))
    have hag1 : AgreeOn (g.free h.next)
        (encodeKind v (encodeBytesBlock (strBytes k) h).2).2
        (encodeBytesBlock (strBytes k) h).2.next
        (encodeKind v (encodeBytesBlock (strBytes k) h).2).2.next := by
      intro q hq1 hq2
      have hc := hstr.2 q
      rw [hc, if_neg (by omega)]
      have := ha q (by omega) (by omega)
      rw [this]
      exact ih2.1.outside q (Or.inl hq2)
    obtain ⟨g1, hdec1, hclr1⟩ := ih1.2 fuel (g.free h.next) (by
      have := hf
      simp only [fsizeKindEntryList] at this
      omega) hag1
    have hag2 : AgreeOn g1 (encodeKindEntryList r
        (encodeKind v (encodeBytesBlock (strBytes k) h).2).2).2
        (encodeKind v (encodeBytesBlock (strBytes k) h).2).2.next
        (encodeKindEntryList r
          (encodeKind v (encodeBytesBlock (strBytes k) h).2).2).2.next :=
      AgreeOn.after_clear hclr1 (by
        intro q hq1 hq2
        rw [Heap.lookup_free, if_neg (by omega)]
        exact ha q (by omega) hq2)
    obtain ⟨g2, hdec2, hclr2⟩ := ih2.2 fuel g1 (by
      have := hf
      simp only [fsizeKindEntryList] at this
      omega) hag2
    refine ⟨g2, ?_, ?_⟩
    · simp only [decodeKindEntryList, hstr.1, hdec1, hdec2]
    · refine ClearRange.comp_lh (by simpa [hb1] using hstr.2)
        (ClearRange.comp_lh (by simpa [hb1] using hclr1) hclr2 hn1 hn2)
        (by omega) (by omega)
termination_by en h hwf => sizeOf en
decreasing_by all_goals (simp_wf <;> omega)

theorem encodeVariants_spec : ∀ (vs : List (List (String × SqlKind))) (h : Heap),
    wfVariantList vs = true →
    EncOk h (encodeVariants vs h).2 ∧
    DecSpec (fsizeVariants vs)
      (fun fuel g => decodeVariants fuel (encodeVariants vs h).1 g)
      ((encodeVariants vs h).2) h.next ((encodeVariants vs h).2).next vs
  | [], h, hwf => by
    exact ⟨EncOk.refl h, fun fuel g _ _ =>
      ⟨g, by simp [encodeVariants, decodeVariants], ClearRange.empty g _⟩⟩
  | m :: r, h, hwf => by
    have hwf1 : sortedKeysB m = true ∧ wfKindEntryList m = true ∧
        wfVariantList r = true := by
      simpa [wfVariantList, Bool.and_eq_true, and_assoc] using hwf
    have ih1 := encodeKindEntryList_spec m h hwf1.2.1
    have ih2 := encodeVariants_spec r ((encodeKindEntryList m h).2.alloc
      ((encodeKindEntryList m h).1.map (fun e => HVal.kvpairK e.1 e.2))).2 hwf1.2.2
    have hn1 : h.next ≤ (encodeKindEntryList m h).2.next := ih1.1.next_le
    have hbn : (((encodeKindEntryList m h).2.alloc
        ((encodeKindEntryList m h).1.map (fun e => HVal.kvpairK e.1 e.2))).2).next =
        (encodeKindEntryList m h).2.next + 1 := Heap.alloc_next _ _
    have hn2 : ((encodeKindEntryList m h).2.alloc
        ((encodeKindEntryList m h).1.map (fun e => HVal.kvpairK e.1 e.2))).2.next ≤
        (encodeVariants r ((encodeKindEntryList m h).2.alloc
          ((encodeKindEntryList m h).1.map (fun e => HVal.kvpairK e.1 e.2))).2).2.next :=
      ih2.1.next_le
    have henc : EncOk h (encodeVariants r ((encodeKindEntryList m h).2.alloc
        ((encodeKindEntryList m h).1.map (fun e => HVal.kvpairK e.1 e.2))).2).2 :=
      EncOk.trans ih1.1 (EncOk.trans (EncOk.alloc _ _) ih2.1)
    refine ⟨by simpa [encodeVariants] using henc, ?_⟩
    intro fuel g hf ha
    simp only [encodeVariants] at ha ⊢
    cases fuel with
    | zero => exact absurd hf (by simp [fsizeVariants])
    | succ f =>
      have hff : fsizeKindEntryList m ≤ f ∧ fsizeVariants r ≤ f + 1 := by
        have := hf
        simp only [fsizeVariants] at this
        omega
      have hread := readArr_spec cellsPairsK (fun e => HVal.kvpairK e.1 e.2)
        (encodeKindEntryList m h).1 (cellsPairsK_map _)
        (encodeKindEntryList m h).2 g (by
          intro q hq1 hq2
          have := ha q (by omega) (by omega)
          rw [this]
          exact ih2.1.outside q (Or.inl (by omega)))
      have hag1 : AgreeOn (g.free (encodeKindEntryList m h).2.next)
          (encodeKindEntryList m h).2 h.next (encodeKindEntryList m h).2.next := by
        intro q hq1 hq2
        have hfree := (hread.2) q
        rw [hfree, if_neg (by omega)]
        have := ha q hq1 (by omega)
        rw [this]
        rw [ih2.1.outside q (Or.inl (by omega))]
        exact (EncOk.alloc _ _).outside q (Or.inl (by omega))
      obtain ⟨g1, hdec1, hclr1⟩ := ih1.2 f (g.free (encodeKindEntryList m h).2.next)
        hff.1 hag1
      have hdec1b : decodeKindEntryList f (encodeKindEntryList m h).1
          (g.free (encodeKindEntryList m h).2.next) = Except.ok (m, g1) := hdec1
      have hclrA : ClearRange g g1 h.next ((encodeKindEntryList m h).2.next + 1) :=
        ClearRange.comp_hl (ClearRange.free g _) hclr1 hn1 (by omega)
      have hag2 : AgreeOn g1 (encodeVariants r ((encodeKindEntryList m h).2.alloc
          ((encodeKindEntryList m h).1.map (fun e => HVal.kvpairK e.1 e.2))).2).2
          ((encodeKindEntryList m h).2.next + 1)
          (encodeVariants r ((encodeKindEntryList m h).2.alloc
            ((encodeKindEntryList m h).1.map (fun e => HVal.kvpairK e.1 e.2))).2).2.next := by
        intro q hq1 hq2
        have hc := hclrA q
        rw [hc, if_neg (by omega)]
        exact ha q (by omega) hq2
      obtain ⟨g2, hdec2, hclr2⟩ := ih2.2 (f + 1) g1 hff.2 (by
        simpa [hbn] using hag2)
      have hdec2b : decodeVariants (f + 1) (encodeVariants r
          ((encodeKindEntryList m h).2.alloc
            ((encodeKindEntryList m h).1.map (fun e => HVal.kvpairK e.1 e.2))).2).1
          g1 = Except.ok (r, g2) := hdec2
      have hmap : mapFromList m = m :=
        mapFromList_sorted m ((sortedKeysB_iff m).mp hwf1.1)
      refine ⟨g2, ?_, ?_⟩
      · simp only [decodeVariants, Heap.alloc_fst, hread.1, hdec1b, hdec2b, hmap]
      · refine ClearRange.comp_lh hclrA (by simpa [hbn] using hclr2)
          (by omega) (by omega)
termination_by vs h hwf => sizeOf vs
decreasing_by all_goals (simp_wf <;> omega)
end

/-- Sample value for concrete roundtrip instantiation. -/
def sampleV : SqlValue :=
  SqlValue.object
    [("a", SqlValue.strand "héllo"),
     ("b", SqlValue.array [SqlValue.number (SqlNumber.int 7), SqlValue.none]),
     ("c", SqlValue.datetime 0 0)]

/-- Sample kind for concrete roundtrip instantiation. -/
def sampleK : SqlKind :=
  SqlKind.function
    (Option.some [SqlKind.int, SqlKind.option SqlKind.string])
    (Option.some (SqlKind.literal (SqlLiteral.object [("x", SqlKind.bool)])))

/-- **C1.**  For every well-formed `sql::Value` `v` and every supported
`sql::Kind` `k`, transferring it into guest memory through the transfer
engine (`into_transferrable` followed by `Transfer::transfer`) and
receiving it back (`receive` followed by `from_transferrable`) returns
the original value, with every block of memory the encoding wrote freed
again and all pre-existing memory untouched: `decode(encode(v)) = v`
and `decode(encode(k)) = k`. -/
theorem c1_decode_encode_roundtrip :
    (∀ (v : SqlValue) (h : Heap) (fuel : Nat), wfValue v = true →
      fsizeValue v ≤ fuel →
      ∃ g, receiveValue fuel (transferValue v h).1 (transferValue v h).2 =
          Except.ok (v, g) ∧
        ∀ p, p < h.next → g.lookup p = h.lookup p) ∧
    (∀ (k : SqlKind) (h : Heap) (fuel : Nat), wfKind k = true →
      fsizeKind k ≤ fuel →
      ∃ g, receiveKind fuel (transferKind k h).1 (transferKind k h).2 =
          Except.ok (k, g) ∧
        ∀ p, p < h.next → g.lookup p = h.lookup p) := by
  constructor
  · intro v h fuel hwf hfuel
    have hs := encodeValue_spec v h hwf
    have hn1 : h.next ≤ (encodeValue v h).2.next := hs.1.next_le
    have hread := readCell_spec (HVal.value (encodeValue v h).1)
      (encodeValue v h).2 ((encodeValue v h).2.alloc
        [HVal.value (encodeValue v h).1]).2
      (AgreeOn.same _ _ _)
    have hag : AgreeOn ((((encodeValue v h).2.alloc
        [HVal.value (encodeValue v h).1]).2).free (encodeValue v h).2.next)
        (encodeValue v h).2 h.next (encodeValue v h).2.next := by
      intro q hq1 hq2
      have hc := hread.2 q
      rw [hc, if_neg (by omega)]
      exact (EncOk.alloc _ _).outside q (Or.inl hq2)
    obtain ⟨g1, hdec, hclr⟩ := hs.2 fuel _ hfuel hag
    refine ⟨g1, ?_, ?_⟩
    · unfold transferValue receiveValue
      simp only [Heap.alloc_fst, hread.1, hdec]
    · intro p hp
      have h1 := hclr p
      rw [h1, if_neg (by omega)]
      have h2 := hread.2 p
      rw [h2, if_neg (by omega)]
      rw [Heap.lookup_alloc, if_neg (by omega)]
      exact hs.1.outside p (Or.inl hp)
  · intro k h fuel hwf hfuel
    have hs := encodeKind_spec k h hwf
    have hn1 : h.next ≤ (encodeKind k h).2.next := hs.1.next_le
    have hread := readCell_spec (HVal.kind (encodeKind k h).1)
      (encodeKind k h).2 ((encodeKind k h).2.alloc
        [HVal.kind (encodeKind k h).1]).2
      (AgreeOn.same _ _ _)
    have hag : AgreeOn ((((encodeKind k h).2.alloc
        [HVal.kind (encodeKind k h).1]).2).free (encodeKind k h).2.next)
        (encodeKind k h).2 h.next (encodeKind k h).2.next := by
      intro q hq1 hq2
      have hc := hread.2 q
      rw [hc, if_neg (by omega)]
      exact (EncOk.alloc _ _).outside q (Or.inl hq2)
    obtain ⟨g1, hdec, hclr⟩ := hs.2 fuel _ hfuel hag
    refine ⟨g1, ?_, ?_⟩
    · unfold transferKind receiveKind
      simp only [Heap.alloc_fst, hread.1, hdec]
    · intro p hp
      have h1 := hclr p
      rw [h1, if_neg (by omega)]
      have h2 := hread.2 p
      rw [h2, if_neg (by omega)]
      rw [Heap.lookup_alloc, if_neg (by omega)]
      exact hs.1.outside p (Or.inl hp)

/-- Concrete instantiation of the roundtrip theorem at `sampleV` and
`sampleK` in the empty guest memory. -/
theorem c1_decode_encode_roundtrip_witness :
    (wfValue sampleV = true ∧ fsizeValue sampleV ≤ 5 ∧
      ∃ g, receiveValue 5 (transferValue sampleV Heap.empty).1
          (transferValue sampleV Heap.empty).2 = Except.ok (sampleV, g) ∧
        ∀ p, p < Heap.empty.next → g.lookup p = Heap.empty.lookup p) ∧
    (wfKind sampleK = true ∧ fsizeKind sampleK ≤ 5 ∧
      ∃ g, receiveKind 5 (transferKind sampleK Heap.empty).1
          (transferKind sampleK Heap.empty).2 = Except.ok (sampleK, g) ∧
        ∀ p, p < Heap.empty.next → g.lookup p = Heap.empty.lookup p) :=
  ⟨⟨by decide, by decide,
    c1_decode_encode_roundtrip.1 sampleV Heap.empty 5 (by decide) (by decide)⟩,
   ⟨by decide, by decide,
    c1_decode_encode_roundtrip.2 sampleK Heap.empty 5 (by decide) (by decide)⟩⟩

/-! ## Argument transfer and the guest arity check

`Args::transfer_args` (host side) and the receiving prefix of
`Args::accept_args` (guest side) from `args.rs`: the host writes the
element block then a `TransferredArray<Value>` cell; the guest receives
the cell, reads the element block, and checks the length against the
declared arity before converting any element. -/

/-- `Args::transfer_args` at the `Value` level (`args.rs`): write the
already-encoded argument values as one block, then transfer the
`TransferredArray<Value>` handle itself. -/
def transferArgsRaw (vals : List TValue) (h : Heap) : Nat × Heap :=
  let pa := h.alloc (vals.map HVal.value)
  let pb := pa.2.alloc [HVal.tarr ⟨pa.1, vals.length⟩]
  (pb.1, pb.2)

/-- The receiving prefix of `Args::accept_args` (`args.rs` lines
30-35): receive the `TransferredArray<Value>` cell, read the `Value`
elements, and fail with `Error::InvalidArgs(expected, got)` when the
received length differs from the declared arity `n`. -/
def acceptArgsRaw (n : Nat) (p : Nat) (h : Heap) :
    Except SrError (List TValue × Heap) :=
  match readFree h p with
  | Except.ok ([HVal.tarr ta], h1) =>
    match readArr cellsValues ta h1 with
    | Except.ok (arr, h2) =>
      if arr.length ≠ n then Except.error (SrError.invalidArgs n arr.length)
      else Except.ok (arr, h2)
    | Except.error e => Except.error e
  | Except.ok (_, _) => Except.error SrError.layoutViolation
  | Except.error e => Except.error e

/-- **C3.**  For every declared arity `n` and every transferred argument
array of length `m` with `m ≠ n`, the guest argument decoder fails with
`InvalidArgs(n, m)` — expected count first, received count second.  This
holds for every wrong-arity invocation. -/
theorem c3_accept_args_arity_check (n m : Nat) (vals : List TValue) (h : Heap)
    (hlen : vals.length = m) (hne : m ≠ n) :
    acceptArgsRaw n (transferArgsRaw vals h).1 (transferArgsRaw vals h).2 =
      Except.error (SrError.invalidArgs n m) := by
  unfold transferArgsRaw acceptArgsRaw readFree
  simp only [Heap.alloc_fst]
  rw [Heap.lookup_alloc]
  have hne2 : (h.alloc (vals.map HVal.value)).2.next = h.next + 1 :=
    Heap.alloc_next _ _
  rw [if_pos rfl]
  have hread := readArr_spec cellsValues HVal.value vals (cellsValues_map _) h
    ((((h.alloc (vals.map HVal.value)).2.alloc
      [HVal.tarr ⟨h.next, vals.length⟩]).2).free (h.alloc (vals.map HVal.value)).2.next)
    (by
      intro q hq1 hq2
      have hq : q = h.next := by omega
      subst hq
      rw [Heap.lookup_free, if_neg (by omega), Heap.lookup_alloc,
        if_neg (by omega), Heap.lookup_alloc, if_pos rfl])
  rw [hne2] at hread
  rw [hne2]
  simp only [hread.1]
  rw [hlen, if_pos hne]

/-- Concrete instantiation: invoking a 1-argument function with 0
arguments raises `InvalidArgs(1, 0)`. -/
theorem c3_accept_args_arity_check_witness :
    ([] : List TValue).length = 0 ∧ (0 : Nat) ≠ 1 ∧
    acceptArgsRaw 1 (transferArgsRaw [] Heap.empty).1
        (transferArgsRaw [] Heap.empty).2 =
      Except.error (SrError.invalidArgs 1 0) :=
  ⟨rfl, by decide, c3_accept_args_arity_check 1 0 [] Heap.empty rfl (by decide)⟩

/-! ## The invocation path: guest stub and host controller

`SurrealismFunction::invoke_raw` (`registry.rs` lines 68-77) decodes the
arguments, runs the user function, encodes the `Result` as a
`CResult<Value>` and transfers it; `Controller::invoke`
(`controller.rs` lines 56-63) transfers the arguments, calls the stub,
and then decodes the returned pointer with `Value::receive` followed by
`sql::Value::from_transferrable`. -/

/-- `Transferrable<Value> for i64` decoding (`convert.rs` lines
172-178). -/
def decodeI64 (tv : TValue) : Except SrError Int :=
  match tv with
  | TValue.number (TNumber.int i) => Except.ok i
  | _ => Except.error SrError.unexpectedType

/-- `Transferrable<CResult<Value>> for Result<T, String>` encoding
(`utils.rs` lines 89-99): `Ok` encodes the payload, `Err` encodes the
message as a `Strand`. -/
def encodeCResult (r : Except String SqlValue) (h : Heap) : TCResultV × Heap :=
  match r with
  | Except.ok v =>
    let th := encodeValue v h
    (TCResultV.ok th.1, th.2)
  | Except.error e =>
    let ta := encodeBytesBlock (strBytes e) h
    (TCResultV.err ta.1, ta.2)

/-- `SurrealismFunction::invoke_raw` for a two-`i64`-argument user
function (`registry.rs` lines 68-77): accept the arguments, run the
function, encode the `Result` into a fresh `CResult<Value>` block and
return its pointer. -/
def invokeRawII (f : Int → Int → Except String SqlValue) (p : Nat) (h : Heap) :
    Except SrError (Nat × Heap) :=
  match acceptArgsRaw 2 p h with
  | Except.ok ([t1, t2], h1) =>
    match decodeI64 t1 with
    | Except.ok a =>
      match decodeI64 t2 with
      | Except.ok b =>
        let rh := encodeCResult (f a b) h1
        let pa := rh.2.alloc [HVal.cresultV rh.1]
        Except.ok (pa.1, pa.2)
      | Except.error e => Except.error e
    | Except.error e => Except.error e
  | Except.ok (_, _) => Except.error SrError.layoutViolation
  | Except.error e => Except.error e

/-- `Controller::invoke` (`controller.rs` lines 56-63) for a
two-`i64`-argument guest function: transfer the argument array, call the
`__sr_fnc__` stub, then decode the returned pointer with
`Value::receive` and `sql::Value::from_transferrable`. -/
def hostInvokeII (f : Int → Int → Except String SqlValue) (a b : Int)
    (fuel : Nat) (h : Heap) : Except SrError (SqlValue × Heap) :=
  let ta := transferArgsRaw
    [TValue.number (TNumber.int a), TValue.number (TNumber.int b)] h
  match invokeRawII f ta.1 ta.2 with
  | Except.ok (p2, h2) => receiveValue fuel p2 h2
  | Except.error e => Except.error e

/-- A guest function that fails: integer division returning
`Err("Division by zero")` on a zero divisor (scenario 4 of the
specification). -/
def divideFn (a b : Int) : Except String SqlValue :=
  if b = 0 then Except.error "Division by zero"
  else Except.ok (SqlValue.number (SqlNumber.int (a / b)))

/-- **C2 (observed behaviour).**  When the guest function returns
`Err("Division by zero")`, `Controller::invoke` does not surface any
failure: it decodes the guest-written `CResult<Value>` block as a plain
`Value`, so the `Err` discriminant reads as `SR_VALUE_NULL` and invoke
returns `Ok(Null)`.  The error message block is never read.  This
contradicts the claim that `invoke` decodes the pointer as a
`Result<Value>` and fails with a message ending in
`"Division by zero"`. -/
theorem c2_invoke_drops_guest_error :
    divideFn 1 0 = Except.error "Division by zero" ∧
    (match hostInvokeII divideFn 1 0 5 Heap.empty with
      | Except.ok (v, _) => Option.some v
      | Except.error _ => Option.none) = Option.some SqlValue.null := by
  constructor
  · rfl
  · simp [hostInvokeII, invokeRawII, acceptArgsRaw, transferArgsRaw,
      receiveValue, readFree, readArr, decodeValue, decodeI64, encodeCResult,
      divideFn, valueOfCResultBits, Heap.alloc, Heap.free, Heap.lookup,
      Heap.empty, memLookup, cellsValues, strBytes, encodeBytesBlock, encChar]

/-! ## The build-step attribute (`surrealism-macros/src/lib.rs`)

The attribute is modelled by the data it derives from the annotated
function and the list of exported symbols it emits, with each export's
name, parameter count and result count taken from the generated
`extern "C"` signatures (lines 77-115 of the macro source). -/

structure AttrInput where
  fnName : String
  isDefault : Bool
  nameOverride : Option String
  arity : Nat

/-- The export suffix rule (macro lines 67-71): `default` gives the
empty suffix, otherwise the `name` override or the function
identifier. -/
def exportSuff (m : AttrInput) : String :=
  if m.isDefault then "" else m.nameOverride.getD m.fnName

structure ExportSig where
  name : String
  params : Nat
  results : Nat
deriving DecidableEq

/-- The three exports the macro emits (lines 77-115): the `__sr_fnc__`
stub is generated as `fn(ptr: u32, len: u32) -> u32` — two `u32`
parameters — while `__sr_args__` and `__sr_returns__` take none. -/
def genExports (m : AttrInput) : List ExportSig :=
  [⟨"__sr_fnc__" ++ exportSuff m, 2, 1⟩,
   ⟨"__sr_args__" ++ exportSuff m, 0, 1⟩,
   ⟨"__sr_returns__" ++ exportSuff m, 0, 1⟩]

/-- The host controller calls `__sr_fnc__<name>` with typed signature
`(u32) -> (u32)` — one parameter (`controller.rs` line 59). -/
def hostFncParamCount : Nat := 1

/-- **C4 (observed behaviour).**  For the annotated function
`can_drive(age: i64) -> bool`, the macro emits
`__sr_fnc__can_drive(ptr: u32, len: u32) -> u32` with two `u32`
parameters, while `__sr_args__`/`__sr_returns__` match the claimed
`() -> u32` shape; the host controller (and the claim) expect the
`__sr_fnc__` export to take a single `u32`. -/
theorem c4_fnc_export_has_two_params :
    genExports ⟨"can_drive", false, Option.none, 1⟩ =
      [⟨"__sr_fnc__can_drive", 2, 1⟩,
       ⟨"__sr_args__can_drive", 0, 1⟩,
       ⟨"__sr_returns__can_drive", 0, 1⟩] ∧
    hostFncParamCount = 1 ∧ (2 : Nat) ≠ 1 := by
  refine ⟨?_, rfl, by decide⟩
  rfl

/-! ## Introspection (`registry.rs`, `args.rs`, `kindof.rs`)

A declared guest function signature is a list of argument Rust types and
a return Rust type; `kindofRT` is the `KindOf` table of `kindof.rs`,
including the erasure `impl KindOf for Result<T, E>` (lines 45-49)
that reports `T`'s kind and drops the error type. -/

inductive RustType where
  | sqlValue : RustType
  | rBool : RustType
  | sqlBytes : RustType
  | sqlDatetime : RustType
  | sqlDuration : RustType
  | rF64 : RustType
  | rI64 : RustType
  | sqlNumber : RustType
  | sqlObject : RustType
  | rString : RustType
  | sqlRegex : RustType
  | sqlThing : RustType
  | sqlGeometry : RustType
  | sqlRange : RustType
  | sqlArray : RustType
  | rUnit : RustType
  | rOption (t : RustType) : RustType
  | rResult (t : RustType) (errName : String) : RustType

/-- The `KindOf` table (`kindof.rs` lines 20-55). -/
def kindofRT : RustType → SqlKind
  | RustType.sqlValue => SqlKind.any
  | RustType.rBool => SqlKind.bool
  | RustType.sqlBytes => SqlKind.bytes
  | RustType.sqlDatetime => SqlKind.datetime
  | RustType.sqlDuration => SqlKind.duration
  | RustType.rF64 => SqlKind.float
  | RustType.rI64 => SqlKind.int
  | RustType.sqlNumber => SqlKind.number
  | RustType.sqlObject => SqlKind.object
  | RustType.rString => SqlKind.string
  | RustType.sqlRegex => SqlKind.regex
  | RustType.sqlThing => SqlKind.record []
  | RustType.sqlGeometry => SqlKind.geometry []
  | RustType.sqlRange => SqlKind.range
  | RustType.sqlArray => SqlKind.array SqlKind.any Option.none
  | RustType.rUnit => SqlKind.any
  | RustType.rOption t => SqlKind.option (kindofRT t)
  | RustType.rResult t _ => kindofRT t

/-- A declared guest function signature. -/
structure FnSig where
  args : List RustType
  ret : RustType

/-- `SurrealismFunction::args` (`registry.rs` lines 36-38), which
returns `A::kinds()`: the per-element `kindof` list of the argument
tuple (`args.rs` lines 44-48). -/
def fnArgsKinds (s : FnSig) : List SqlKind := s.args.map kindofRT

/-- `SurrealismFunction::returns` (`registry.rs` lines 40-42):
`R::kindof()`. -/
def fnReturnsKind (s : FnSig) : SqlKind := kindofRT s.ret

/-- **C5.**  For every declared signature, `args()` has exactly one
`Kind` per declared argument, and `returns()` is the declared return
kind with `Result<T, E>` erased to `T`'s kind — independent of the
error type. -/
theorem c5_introspection_matches_declaration (s : FnSig) :
    (fnArgsKinds s).length = s.args.length ∧
    (∀ (t : RustType) (e : String), kindofRT (RustType.rResult t e) = kindofRT t) ∧
    (∀ (t : RustType) (e1 e2 : String),
      fnReturnsKind ⟨s.args, RustType.rResult t e1⟩ =
        fnReturnsKind ⟨s.args, RustType.rResult t e2⟩) := by
  refine ⟨List.length_map .., fun t e => rfl, fun t e1 e2 => rfl⟩

/-- Concrete instantiation: `can_drive(age: i64) -> Result<bool, E>`
reports one argument kind `[Int]` and return kind `Bool`. -/
theorem c5_introspection_witness :
    (fnArgsKinds ⟨[RustType.rI64], RustType.rResult RustType.rBool "E"⟩).length = 1 ∧
    fnReturnsKind ⟨[RustType.rI64], RustType.rResult RustType.rBool "E"⟩ =
      SqlKind.bool ∧
    (fnArgsKinds ⟨[RustType.rI64], RustType.rResult RustType.rBool "E"⟩).length =
      ([RustType.rI64] : List RustType).length :=
  ⟨rfl, rfl,
    (c5_introspection_matches_declaration
      ⟨[RustType.rI64], RustType.rResult RustType.rBool "E"⟩).1⟩

/-- **C6.**  Datetime reconstruction is range-checked
(`datetime.rs` lines 27-36): the pair `(0, 0)` encodes and decodes to
the same instant; `(i64::MAX, 0)` decodes to `InvalidDatetime`; and
every pair outside the representable instant window is rejected. -/
theorem c6_datetime_range_checked :
    (∀ (fuel : Nat) (h : Heap),
      encodeValue (SqlValue.datetime 0 0) h = (TValue.datetime 0 0, h) ∧
      decodeValue fuel (TValue.datetime 0 0) h =
        Except.ok (SqlValue.datetime 0 0, h)) ∧
    (∀ (fuel : Nat) (h : Heap),
      decodeValue fuel (TValue.datetime 9223372036854775807 0) h =
        Except.error SrError.invalidDatetime) ∧
    (∀ (fuel : Nat) (h : Heap) (s : Int) (n : Nat), chronoOk s n = false →
      decodeValue fuel (TValue.datetime s n) h =
        Except.error SrError.invalidDatetime) := by
  refine ⟨fun fuel h => ⟨rfl, ?_⟩, fun fuel h => ?_, fun fuel h s n hc => ?_⟩
  · simp [decodeValue, chronoOk, chronoMinSecs, chronoMaxSecs]
  · simp [decodeValue, chronoOk, chronoMinSecs, chronoMaxSecs]
  · simp [decodeValue, hc]

/-- Concrete instantiation: nanoseconds at two billion are out of
range and rejected. -/
theorem c6_datetime_range_checked_witness :
    chronoOk 0 2000000000 = false ∧
    decodeValue 0 (TValue.datetime 0 2000000000) Heap.empty =
      Except.error SrError.invalidDatetime :=
  ⟨by decide, c6_datetime_range_checked.2.2 0 Heap.empty 0 2000000000 (by decide)⟩

/-- **C7.**  Decoding a `Strand` whose byte payload is not well-formed
UTF-8 never returns a string: the decode aborts with the fatal
`expect` message of `string.rs` line 17; and every string a `Strand`
decode does return comes from a successful UTF-8 validation of the
payload bytes. -/
theorem c7_strand_decode_utf8 (fuel : Nat) (bs : List Nat) (h : Heap) (ta : TArr)
    (hlook : h.lookup ta.ptr = Option.some (bs.map HVal.byte))
    (hlen : bs.length = ta.len) :
    (utf8Dec bs = Option.none →
      decodeValue fuel (TValue.strand ta) h =
        Except.error (SrError.fatal
          "Found non UTF-8 characters while reconstructing string")) ∧
    ∀ v g, decodeValue fuel (TValue.strand ta) h = Except.ok (v, g) →
      ∃ cs, utf8Dec bs = Option.some cs ∧ v = SqlValue.strand (String.mk cs) := by
  have hread : readArr cellsBytes ta h = Except.ok (bs, h.free ta.ptr) := by
    unfold readArr readFree
    rw [hlook]
    simp only [cellsBytes_map]
    rw [if_pos hlen]
  have hds : decodeStr ta h =
      (match fromUtf8 bs with
       | Option.some s => Except.ok (s, h.free ta.ptr)
       | Option.none => Except.error (SrError.fatal
           "Found non UTF-8 characters while reconstructing string")) := by
    unfold decodeStr
    rw [hread]
  constructor
  · intro hnone
    have hfu : fromUtf8 bs = Option.none := by
      unfold fromUtf8
      rw [hnone]
    rw [hfu] at hds
    simp only [decodeValue, hds]
  · intro v g hok
    simp only [decodeValue] at hok
    cases hu : utf8Dec bs with
    | none =>
      have hfu : fromUtf8 bs = Option.none := by
        unfold fromUtf8
        rw [hu]
      rw [hfu] at hds
      rw [hds] at hok
      exact absurd hok (by simp)
    | some cs =>
      have hfu : fromUtf8 bs = Option.some (String.mk cs) := by
        unfold fromUtf8
        rw [hu]
      rw [hfu] at hds
      rw [hds] at hok
      have hv : v = SqlValue.strand (String.mk cs) := by
        simp only [Except.ok.injEq, Prod.mk.injEq] at hok
        exact hok.1.symm
      exact ⟨cs, rfl, hv⟩

/-- Concrete instantiation: the byte `0xFF` is not valid UTF-8; a
strand block holding it decodes to the fatal abort, never to a
string. -/
theorem c7_strand_decode_utf8_witness :
    (Heap.mk 1 [(0, [HVal.byte 255])]).lookup 0 =
      Option.some ([255].map HVal.byte) ∧
    ([255] : List Nat).length = (1 : Nat) ∧
    (utf8Dec [255] = Option.none →
      decodeValue 0 (TValue.strand ⟨0, 1⟩) (Heap.mk 1 [(0, [HVal.byte 255])]) =
        Except.error (SrError.fatal
          "Found non UTF-8 characters while reconstructing string")) ∧
    (∀ v g, decodeValue 0 (TValue.strand ⟨0, 1⟩)
        (Heap.mk 1 [(0, [HVal.byte 255])]) = Except.ok (v, g) →
      ∃ cs, utf8Dec [255] = Option.some cs ∧
        v = SqlValue.strand (String.mk cs)) :=
  ⟨rfl, rfl,
    (c7_strand_decode_utf8 0 [255] (Heap.mk 1 [(0, [HVal.byte 255])]) ⟨0, 1⟩
      rfl rfl).1,
    (c7_strand_decode_utf8 0 [255] (Heap.mk 1 [(0, [HVal.byte 255])]) ⟨0, 1⟩
      rfl rfl).2⟩

/-! ## KV store range queries (`kv.rs`)

`BTreeMapStore` holds a `BTreeMap<String, sql::Value>`.  The map state
is modelled as an association list sorted strictly ascending in the
byte-lexicographic order `strLt` — the iteration order of `BTreeMap`
over Rust `String` keys.  `SBound` mirrors `std::ops::Bound<String>`. -/

inductive SBound where
  | included (k : String) : SBound
  | excluded (k : String) : SBound
  | unbounded : SBound

/-- End-bound half of `BTreeMapStore::in_range` (`kv.rs` lines 68-80):
`Included(end_key)` rejects `key > end_key`, `Excluded(end_key)`
rejects `key >= end_key`. -/
def inRangeHi (key : String) (e : SBound) : Bool :=
  match e with
  | SBound.included endKey => if strLt endKey key then false else true
  | SBound.excluded endKey => if strLe endKey key then false else true
  | SBound.unbounded => true

/-- `BTreeMapStore::in_range` (`kv.rs` lines 53-82), keeping the
early-return structure of the source: the start bound rejects
`key < start_key` (`Included`) or `key <= start_key` (`Excluded`)
first, then the end bound is checked. -/
def inRange (key : String) (s e : SBound) : Bool :=
  match s with
  | SBound.included startKey =>
    if strLt key startKey then false else inRangeHi key e
  | SBound.excluded startKey =>
    if strLe key startKey then false else inRangeHi key e
  | SBound.unbounded => inRangeHi key e

/-- KV store contents, in `BTreeMap` iteration order. -/
abbrev KVMap := List (String × SqlValue)

/-- The spec sentence "`Bound` follows the standard {Included,
Excluded, Unbounded} semantics", lower half, written from the spec's
words for comparison with the source-derived `inRange`. -/
def specLoOk (key : String) (s : SBound) : Bool :=
  match s with
  | SBound.included a => strLe a key
  | SBound.excluded a => strLt a key
  | SBound.unbounded => true

/-- Upper half of the standard bound semantics, from the spec's
words. -/
def specHiOk (key : String) (e : SBound) : Bool :=
  match e with
  | SBound.included b => strLe key b
  | SBound.excluded b => strLt key b
  | SBound.unbounded => true

/-- Standard range membership, from the spec's words. -/
def specInRange (key : String) (s e : SBound) : Bool :=
  specLoOk key s && specHiOk key e

theorem condFalseLeft (x y : Bool) : (if x = true then false else y) = (!x && y) := by
  cases x <;> simp

theorem condFalseLeftNeg (x y : Bool) :
    (if (!x) = true then false else y) = (x && y) := by
  cases x <;> simp

/-- The source's early-return `in_range` agrees with the standard
bound semantics. -/
theorem inRange_eq_spec (key : String) (s e : SBound) :
    inRange key s e = specInRange key s e := by
  have hhi : inRangeHi key e = specHiOk key e := by
    cases e with
    | included b =>
      simp only [inRangeHi, specHiOk, strLe, condFalseLeft, Bool.and_true]
    | excluded b =>
      simp only [inRangeHi, specHiOk, strLe, condFalseLeftNeg, Bool.and_true]
    | unbounded => rfl
  cases s with
  | included a =>
    simp only [inRange, specInRange, specLoOk, strLe, hhi, condFalseLeft]
  | excluded a =>
    simp only [inRange, specInRange, specLoOk, strLe, hhi, condFalseLeftNeg]
  | unbounded =>
    simp only [inRange, specInRange, specLoOk, hhi, Bool.true_and]

/-- `BTreeMapStore::keys` (`kv.rs` lines 152-160): the key iterator
filtered by `in_range`. -/
def kvKeys (m : KVMap) (s e : SBound) : List String :=
  (m.map Prod.fst).filter (fun k => inRange k s e)

/-- `BTreeMapStore::entries` (`kv.rs` lines 172-184): the entry
iterator filtered by `in_range` on the key. -/
def kvEntries (m : KVMap) (s e : SBound) : KVMap :=
  m.filter (fun p => inRange p.fst s e)

/-- `BTreeMapStore::values` (`kv.rs` lines 162-170): the entry
iterator filtered by `in_range`, projected to values. -/
def kvValues (m : KVMap) (s e : SBound) : List SqlValue :=
  (m.filter (fun p => inRange p.fst s e)).map Prod.snd

/-- `BTreeMapStore::count` (`kv.rs` lines 186-193): the length of the
filtered key iterator. -/
def kvCount (m : KVMap) (s e : SBound) : Nat :=
  ((m.map Prod.fst).filter (fun k => inRange k s e)).length

theorem map_fst_filter_inRange (s e : SBound) :
    ∀ m : KVMap, (m.map Prod.fst).filter (fun k => inRange k s e) =
      (m.filter (fun p => inRange p.fst s e)).map Prod.fst := by
  intro m
  induction m with
  | nil => rfl
  | cons p r ih =>
    cases hp : inRange p.fst s e with
    | true => simp [List.filter_cons, hp, ih]
    | false => simp [List.filter_cons, hp, ih]

/-- **C8.**  Range queries over a sorted KV store state: `entries`
returns exactly the stored pairs whose key satisfies the standard
`Bound` semantics, still in ascending key order; `keys` and `values`
are its key and value projections; and `count` equals the number of
entries. -/
theorem c8_kv_range_semantics (m : KVMap) (s e : SBound) (hs : SortedKeys m) :
    (∀ k v, (k, v) ∈ kvEntries m s e ↔
      ((k, v) ∈ m ∧ specInRange k s e = true)) ∧
    SortedKeys (kvEntries m s e) ∧
    kvKeys m s e = (kvEntries m s e).map Prod.fst ∧
    kvValues m s e = (kvEntries m s e).map Prod.snd ∧
    kvCount m s e = (kvEntries m s e).length := by
  refine ⟨?_, ?_, ?_, rfl, ?_⟩
  · intro k v
    simp [kvEntries, List.mem_filter, inRange_eq_spec]
  · exact List.Pairwise.sublist (List.filter_sublist m) hs
  · exact map_fst_filter_inRange s e m
  · unfold kvCount kvEntries
    rw [map_fst_filter_inRange s e m]
    simp

/-- Concrete KV state used to instantiate the range theorem. -/
def sampleKV : KVMap :=
  [("a", SqlValue.null), ("b", SqlValue.bool true), ("c", SqlValue.none)]

/-- Concrete instantiation of the range-query theorem on a three-entry
store with the range `["b", unbounded)`. -/
theorem c8_kv_range_semantics_witness :
    SortedKeys sampleKV ∧
    kvKeys sampleKV (SBound.included "b") SBound.unbounded =
      (kvEntries sampleKV (SBound.included "b") SBound.unbounded).map Prod.fst ∧
    kvCount sampleKV (SBound.included "b") SBound.unbounded =
      (kvEntries sampleKV (SBound.included "b") SBound.unbounded).length :=
  ⟨(sortedKeysB_iff sampleKV).mp (by decide),
    (c8_kv_range_semantics sampleKV (SBound.included "b") SBound.unbounded
      ((sortedKeysB_iff sampleKV).mp (by decide))).2.2.1,
    (c8_kv_range_semantics sampleKV (SBound.included "b") SBound.unbounded
      ((sortedKeysB_iff sampleKV).mp (by decide))).2.2.2.2⟩

/-! ## Guest allocator (`memory.rs`)

`__sr_free(ptr, len)` builds `Layout::from_size_align(len, 8)`; on a
layout error it returns `-1`, otherwise it calls
`std::alloc::dealloc(ptr, layout)` — which returns no status — and
returns `0` unconditionally.  `Layout::from_size_align(size, align)`
succeeds when `align` is a nonzero power of two and
`size <= isize::MAX - (align - 1)` (wasm32: `isize::MAX = 2^31 - 1`).
The allocator's live-block bookkeeping is internal to `dealloc`; the
returned status never consults it, which `AllocState` makes
explicit. -/

/-- Power-of-two test (`align.is_power_of_two()`): nonzero with a
single set bit. -/
def pow2B (n : Nat) : Bool := n != 0 && (n &&& (n - 1)) == 0

/-- `isize::MAX` on the wasm32 target. -/
def isizeMax : Nat := 2147483647

/-- The `Layout::from_size_align(size, align)` validity condition. -/
def layoutValid (size align : Nat) : Bool :=
  pow2B align && decide (size ≤ isizeMax - (align - 1))

/-- `__sr_free` (`memory.rs` lines 17-29): `-1` exactly on an invalid
`(len, 8)` layout, else `0` — the pointer argument and the allocator's
internal state never influence the status. -/
def srFree (ptr len : Nat) : Int :=
  if layoutValid len 8 then 0 else -1

/-- Allocator bookkeeping state: the set of live `(offset, len)`
blocks handed out by `__sr_alloc` and not yet freed. -/
structure AllocState where
  live : List (Nat × Nat)

/-- The freshly instantiated guest has no live blocks. -/
def AllocState.empty : AllocState := ⟨[]⟩

/-- **C9 (counterexample).**  `__sr_free` reports success (`0`) for a
block that was never allocated: in the empty allocator state, no
allocation ever returned offset `999`, yet `free(999, 24)` still
returns `0` — so `free` does not succeed *exactly once* per allocated
block, refuting the claim as stated. -/
theorem c9_free_succeeds_without_allocation :
    srFree 999 24 = 0 ∧ (999, 24) ∉ AllocState.empty.live := by
  refine ⟨?_, ?_⟩
  · decide
  · simp [AllocState.empty]

/-- **C9 (amended).**  What the code guarantees: the status of
`free(ptr, len)` depends only on the `(len, 8)` layout check — it is
`0` whenever the layout is valid (in particular for the matching free
of every successful allocation, and equally for any repeated or
unmatched free), and `-1` exactly when the layout is invalid. -/
theorem c9_free_status_is_layout_only (ptr len ptr2 len2 : Nat)
    (hv : layoutValid len 8 = true)
    (hi : layoutValid len2 8 = false) :
    srFree ptr len = 0 ∧ srFree ptr2 len2 = -1 := by
  constructor
  · simp [srFree, hv]
  · simp [srFree, hi]

/-- Concrete instantiation: a 24-byte block frees with status `0` at
any offset; a block of `2^31` bytes exceeds `isize::MAX - 7` and is
rejected with `-1`. -/
theorem c9_free_status_witness :
    layoutValid 24 8 = true ∧ layoutValid 2147483648 8 = false ∧
    srFree 5 24 = 0 ∧ srFree 5 2147483648 = -1 :=
  ⟨by decide, by decide,
    (c9_free_status_is_layout_only 5 24 5 2147483648 (by decide) (by decide)).1,
    (c9_free_status_is_layout_only 5 24 5 2147483648 (by decide) (by decide)).2⟩

/-! ## KV batched reads (`kv.rs`) -/

/-- `BTreeMapStore::get` (`kv.rs` lines 92-95):
`map.get(&key).cloned()` as association-list lookup. -/
def mapGet (m : KVMap) (k : String) : Option SqlValue :=
  match m.find? (fun p => p.fst == k) with
  | Option.some p => Option.some p.snd
  | Option.none => Option.none

/-- `BTreeMapStore::get_batch` (`kv.rs` lines 127-134): one
`map.get(&key).cloned()` push per requested key, in order. -/
def kvGetBatch (m : KVMap) (ks : List String) : List (Option SqlValue) :=
  ks.map (fun k => mapGet m k)

/-- **C10.**  `get_batch(keys)` returns exactly `keys.length` results,
and the `i`-th result is `get(keys[i])` on the same state:
order-preserving, `none` for absent keys, stored value for present
keys. -/
theorem c10_get_batch_pointwise (m : KVMap) (ks : List String) :
    (kvGetBatch m ks).length = ks.length ∧
    ∀ i : Nat, (kvGetBatch m ks)[i]? = (ks[i]?).map (fun k => mapGet m k) := by
  constructor
  · simp [kvGetBatch]
  · intro i
    simp [kvGetBatch]
